import Mathlib

/-!
Verification development for the sim workflow platform.

Part I embeds the workflow execution engine described in the design
document (graph model, validation, scheduler, executor core, retry
policy, loop regions, cancellation).  The engine itself ships outside
this bundle, so every definition in Part I is modelled from the spec's
own wording, and each doc comment says so.

Part II embeds the concrete source files present in the bundle: the
health endpoint handler, the auth-client `getBaseURL` resolver, and the
standalone SQL migration runner.
-/

namespace SimEngine

/-- Modelled from the spec: per-block status
`pending | running | succeeded | failed | skipped` kept in the
Execution Context. -/
inductive Status where
  | pending
  | running
  | succeeded
  | failed
  | skipped
deriving DecidableEq, Repr

/-- Modelled from the spec: the terminal statuses are
`succeeded`, `failed` and `skipped`. -/
def Status.isTerminal : Status → Bool
  | .succeeded => true
  | .failed => true
  | .skipped => true
  | _ => false

/-- Modelled from the spec: the error taxonomy of section 7 (the
validation errors get their own type below, mirroring the separate
`ValidationError` contract). -/
inductive ErrKind where
  | handlerError
  | timeoutError
  | cancellationError
  | loopLimitExceeded
  | capabilityResolutionError
deriving DecidableEq, Repr

/-- Modelled from the spec: block execution mode tags. -/
inductive BlockMode where
  | normal
  | condition
  | loopStart
  | loopEnd
  | parallelFanout
  | parallelJoin
deriving DecidableEq, Repr

/-- Modelled from the spec: a Block is a node with a stable identifier,
a capability name and an execution mode tag; immutable during a run. -/
structure Block where
  id : Nat
  capability : String
  mode : BlockMode

/-- Modelled from the spec: run-scoped variable bindings. -/
def Bindings := List (String × Int)

/-- Modelled from the spec: an Edge is a directed relation with an
optional guard evaluated against the Execution Context's bindings, and
a satisfied-on-skip tag used for alternate-branch joins. -/
structure Edge where
  src : Nat
  dst : Nat
  guard : Option (Bindings → Bool)
  satisfiedOnSkip : Bool

/-- Modelled from the spec: a Graph is a set of blocks plus a set of
edges with a designated entry block; loop regions are recorded as
matching loop-start / loop-end pairs. -/
structure Graph where
  blocks : List Block
  edges : List Edge
  loops : List (Nat × Nat)
  entry : Nat

def Graph.ids (g : Graph) : List Nat := g.blocks.map Block.id

/-- Modelled from the spec: a lifecycle event emitted on every state
transition of a block. -/
inductive Event where
  | started (b : Nat)
  | succeededEv (b : Nat)
  | failedEv (b : Nat) (kind : ErrKind)
  | skippedEv (b : Nat)
deriving DecidableEq, Repr

/-- Modelled from the spec: the per-run Execution Context — block
statuses and errors, run-scoped variable bindings, a monotonically
increasing logical clock, the ordered event log, and a cancellation
flag.  Owned exclusively by one run. -/
structure ExecCtx where
  statuses : Nat → Status
  errors : Nat → Option ErrKind
  vars : Bindings
  clock : Nat
  events : List Event
  cancelled : Bool

/-- Modelled from the spec: fresh context of a new run — every block
pending, empty event log, clock zero. -/
def initCtx (vars : Bindings) : ExecCtx :=
  { statuses := fun _ => .pending
    errors := fun _ => none
    vars := vars
    clock := 0
    events := []
    cancelled := false }

def edgesInto (g : Graph) (b : Nat) : List Edge :=
  g.edges.filter (fun e => e.dst == b)

/-- Modelled from the spec, scheduler rule 1: an incoming edge is
satisfied when its source succeeded and its guard (if present)
evaluates true, or when the source was skipped and the edge is tagged
satisfied-on-skip. -/
def edgeSatisfied (statuses : Nat → Status) (vars : Bindings) (e : Edge) : Bool :=
  match statuses e.src with
  | .succeeded =>
      match e.guard with
      | none => true
      | some p => p vars
  | .skipped => e.satisfiedOnSkip
  | _ => false

def srcTerminal (statuses : Nat → Status) (e : Edge) : Bool :=
  (statuses e.src).isTerminal

/-- Modelled from the spec: the scheduler core — a pure function of the
graph together with the statuses and bindings it reads from the
Execution Context. -/
def eligibleCore (g : Graph) (statuses : Nat → Status) (vars : Bindings) : List Nat :=
  g.ids.filter (fun b =>
    statuses b == .pending && (edgesInto g b).all (edgeSatisfied statuses vars))

/-- Modelled from the spec: the Scheduler — given a Graph and the
current Execution Context, the set of blocks eligible to run now. -/
def eligible (g : Graph) (c : ExecCtx) : List Nat :=
  eligibleCore g c.statuses c.vars

/-- Modelled from the spec, scheduler rule 2: a pending block all of
whose incoming edges are decided (their sources terminal) but not all
satisfied transitions to `skipped` rather than staying pending
forever. -/
def skippable (g : Graph) (c : ExecCtx) : List Nat :=
  g.ids.filter (fun b =>
    c.statuses b == .pending
      && (edgesInto g b).all (srcTerminal c.statuses)
      && !((edgesInto g b).all (edgeSatisfied c.statuses c.vars)))

def emit (c : ExecCtx) (e : Event) : ExecCtx :=
  { c with events := c.events ++ [e], clock := c.clock + 1 }

/-- Modelled from the spec (executor core): dispatch a single eligible
block — emit a started event, invoke the capability handler, write the
terminal status back and emit the terminal event. -/
def dispatchBlock (handler : Nat → Bool) (b : Nat) (c : ExecCtx) : ExecCtx :=
  let c1 := emit c (.started b)
  if handler b then
    emit { c1 with statuses := fun x => if x = b then .succeeded else c1.statuses x }
      (.succeededEv b)
  else
    emit { c1 with
            statuses := fun x => if x = b then .failed else c1.statuses x
            errors := fun x => if x = b then some .handlerError else c1.errors x }
      (.failedEv b .handlerError)

/-- Modelled from the spec (scheduler rule 2): transition one skippable
block to `skipped` and emit the skip event. -/
def skipBlock (b : Nat) (c : ExecCtx) : ExecCtx :=
  emit { c with statuses := fun x => if x = b then .skipped else c.statuses x }
    (.skippedEv b)

/-- Blocks of the graph that have not reached a terminal status. -/
def nonTerminalBlocks (g : Graph) (c : ExecCtx) : List Nat :=
  g.ids.filter (fun b => !(c.statuses b).isTerminal)

/-- Modelled from the spec (cancellation): cancelling a run transitions
every non-terminal block to `failed` with a cancellation error kind and
emits the corresponding failure events. -/
def cancelFinalize (g : Graph) (c : ExecCtx) : ExecCtx :=
  { c with
    statuses := fun x =>
      if x ∈ nonTerminalBlocks g c then .failed else c.statuses x
    errors := fun x =>
      if x ∈ nonTerminalBlocks g c then some .cancellationError else c.errors x
    events := c.events ++ (nonTerminalBlocks g c).map (fun b => .failedEv b .cancellationError)
    clock := c.clock + (nonTerminalBlocks g c).length
    cancelled := true }

/-- Modelled from the spec (executor core loop body): one step — if any
block is eligible, dispatch the one chosen by the schedule; otherwise
skip one skippable block; `none` when no work remains. -/
def execStep (g : Graph) (handler : Nat → Bool) (pick : Nat) (c : ExecCtx) :
    Option ExecCtx :=
  let es := eligible g c
  if es.isEmpty then
    match skippable g c with
    | [] => none
    | b :: _ => some (skipBlock b c)
  else
    some (dispatchBlock handler (es.getD (pick % es.length) 0) c)

/-- The run-level cancellation token: fired from step `cancelAt` on. -/
def cancelNow (cancelAt : Option Nat) (i : Nat) : Bool :=
  match cancelAt with
  | some k => decide (k ≤ i)
  | none => false

/-- Modelled from the spec (executor core): drive the run — the
cancellation token is checked at each dispatch boundary; a fired token
finalizes every non-terminal block with a cancellation failure and
stops all further dispatch.  `sched` resolves the nondeterministic
choice among simultaneously eligible blocks; `fuel` bounds the number
of steps. -/
def execRun (g : Graph) (handler : Nat → Bool) (sched : Nat → Nat)
    (cancelAt : Option Nat) : Nat → Nat → ExecCtx → ExecCtx
  | 0, _, c => c
  | fuel + 1, i, c =>
    if cancelNow cancelAt i then
      cancelFinalize g c
    else
      match execStep g handler (sched i) c with
      | none => c
      | some c' => execRun g handler sched cancelAt fuel (i + 1) c'

/-- Modelled from the spec: a complete run of a graph from a fresh
context; the fuel `g.ids.length` suffices because every step drives
exactly one block to a terminal status. -/
def runGraph (g : Graph) (handler : Nat → Bool) (sched : Nat → Nat)
    (cancelAt : Option Nat) (vars : Bindings) : ExecCtx :=
  execRun g handler sched cancelAt g.ids.length 0 (initCtx vars)

/-! ### Graph validation (spec section 4.1) -/

/-- Modelled from the spec: the `ValidationError` variants, one per
validation check. -/
inductive ValidationError where
  | duplicateIds
  | badEdgeEndpoint
  | badLoopRegion
  | cycleOutsideLoop
  | unreachableBlock
deriving DecidableEq, Repr

/-- Index of the first occurrence of `b`, or the length when absent. -/
def listIdx : List Nat → Nat → Nat
  | [], _ => 0
  | a :: t, b => if a = b then 0 else listIdx t b + 1

/-- `order` is a topological order of `ids` for the directed pairs
`prs`: it enumerates exactly the ids, without duplicates, and every
edge goes strictly forward. -/
def TopoOrderOn (ids : List Nat) (prs : List (Nat × Nat)) (order : List Nat) : Prop :=
  (∀ b ∈ ids, b ∈ order) ∧ (∀ b ∈ order, b ∈ ids) ∧ order.Nodup ∧
    ∀ p ∈ prs, p.1 ∈ ids → p.2 ∈ ids → listIdx order p.1 < listIdx order p.2

def noIncoming (prs : List (Nat × Nat)) (alive : List Nat) (b : Nat) : Bool :=
  prs.all (fun p => decide (p.2 = b → p.1 ∉ alive))

/-- Kahn-style peeling: repeatedly emit a node with no incoming edge
from the still-alive set; `none` when a cycle blocks progress. -/
def kahnGo (prs : List (Nat × Nat)) : Nat → List Nat → List Nat → Option (List Nat)
  | 0, alive, acc => if alive.isEmpty then some acc else none
  | fuel + 1, alive, acc =>
    if alive.isEmpty then some acc
    else
      match alive.find? (noIncoming prs alive) with
      | none => none
      | some b => kahnGo prs fuel (alive.erase b) (acc ++ [b])

/-- Modelled from the spec: the acyclicity test used by validation — a
topological sort attempt over the given directed pairs. -/
def kahnSort (ids : List Nat) (prs : List (Nat × Nat)) : Option (List Nat) :=
  kahnGo prs ids.length ids []

def edgePairs (g : Graph) : List (Nat × Nat) :=
  g.edges.map (fun e => (e.src, e.dst))

/-- Modelled from the spec: the non-loop-collapsed unconditional edge
set — unconditional edges minus the back edges from a loop-end to its
matching loop-start. -/
def uncondCollapsedPairs (g : Graph) : List (Nat × Nat) :=
  ((g.edges.filter (fun e => e.guard.isNone)).filter
    (fun e => !(g.loops.any (fun p => p.2 == e.src && p.1 == e.dst)))).map
    (fun e => (e.src, e.dst))

/-- One breadth step of reachability over directed pairs. -/
def reachStep (prs : List (Nat × Nat)) (seen : List Nat) : List Nat :=
  seen ++ (prs.filterMap (fun p =>
    if p.1 ∈ seen ∧ p.2 ∉ seen then some p.2 else none)).dedup

/-- Fuelled reachability closure from a seed set. -/
def reachSet (prs : List (Nat × Nat)) : Nat → List Nat → List Nat
  | 0, seen => seen
  | fuel + 1, seen => reachSet prs fuel (reachStep prs seen)

/-- Modelled from the spec: block-id uniqueness check. -/
def uniqueIdsCheck (g : Graph) : Bool := decide g.ids.Nodup

/-- Modelled from the spec: edge endpoints must reference existing
blocks. -/
def endpointsCheck (g : Graph) : Bool :=
  g.edges.all (fun e => decide (e.src ∈ g.ids) && decide (e.dst ∈ g.ids))

/-- Directed pairs with every pair touching `x` removed; used for the
dominance test (every entry path to the loop-end must pass through the
deleted loop-start). -/
def pairsAvoiding (prs : List (Nat × Nat)) (x : Nat) : List (Nat × Nat) :=
  prs.filter (fun p => !(p.1 == x) && !(p.2 == x))

/-- Interior of a loop region: blocks reachable from the loop-start
without passing through the loop-end. -/
def regionInterior (g : Graph) (s e : Nat) : List Nat :=
  reachSet (pairsAvoiding (edgePairs g) e) g.ids.length [s]

/-- Modelled from the spec: loop-region well-formedness — each declared
pair joins a loop-start block to a loop-end block, every loop-start and
loop-end belongs to exactly one region, the loop-end is reachable from
its loop-start, the loop-start dominates its loop-end in the non-loop-
collapsed graph, and two distinct regions either nest or are
disjoint. -/
def loopRegionCheck (g : Graph) : Bool :=
  (g.loops.all (fun p =>
      g.blocks.any (fun b => b.id == p.1 && (b.mode == BlockMode.loopStart))
        && g.blocks.any (fun b => b.id == p.2 && (b.mode == BlockMode.loopEnd))
        && !(p.1 == p.2)
        && decide (p.2 ∈ reachSet (edgePairs g) g.ids.length [p.1])
        && decide (p.2 ∉ reachSet (pairsAvoiding (uncondCollapsedPairs g) p.1)
            g.ids.length [g.entry])))
    && (g.blocks.all (fun b =>
        (!(b.mode == BlockMode.loopStart) || (g.loops.countP (fun p => p.1 == b.id) == 1))
          && (!(b.mode == BlockMode.loopEnd) || (g.loops.countP (fun p => p.2 == b.id) == 1))))
    && (g.loops.all (fun p => g.loops.all (fun q =>
        (p.1 == q.1 && p.2 == q.2)
          || decide ((regionInterior g p.1 p.2).inter (regionInterior g q.1 q.2) = [])
          || decide ((regionInterior g p.1 p.2) ⊆ (regionInterior g q.1 q.2))
          || decide ((regionInterior g q.1 q.2) ⊆ (regionInterior g p.1 p.2)))))

/-- Modelled from the spec: no unconditional cycle outside a loop
region — the unconditional non-loop-collapsed edge set must admit a
topological order. -/
def acyclicCheck (g : Graph) : Bool :=
  (kahnSort g.ids (uncondCollapsedPairs g)).isSome

/-- Modelled from the spec: every block reachable from the entry
block. -/
def reachCheck (g : Graph) : Bool :=
  g.ids.all (fun b => decide (b ∈ reachSet (edgePairs g) g.ids.length [g.entry]))

/-- Modelled from the spec: `validate(graph) -> Result<ValidatedGraph,
ValidationError>` running the five checks of section 4.1 in order. -/
def validate (g : Graph) : Except ValidationError Graph :=
  if !uniqueIdsCheck g then .error .duplicateIds
  else if !endpointsCheck g then .error .badEdgeEndpoint
  else if !loopRegionCheck g then .error .badLoopRegion
  else if !acyclicCheck g then .error .cycleOutsideLoop
  else if !reachCheck g then .error .unreachableBlock
  else .ok g

/-- Modelled from the spec: run-level configuration recognized by the
run invocation contract. -/
structure RunConfig where
  maxConcurrentBlocks : Nat
  defaultBlockTimeout : Nat
  maxLoopIterations : Nat

/-- Modelled from the spec: `start(graph, input, identity, config)` —
a graph is validated at load and a run never starts against an invalid
graph. -/
def startRun (g : Graph) (_cfg : RunConfig) (handler : Nat → Bool)
    (sched : Nat → Nat) (cancelAt : Option Nat) (vars : Bindings) :
    Except ValidationError ExecCtx :=
  match validate g with
  | .error err => .error err
  | .ok g' => .ok (runGraph g' handler sched cancelAt vars)

/-- The graph has no loop regions and no loop-mode blocks. -/
def NonLoopGraph (g : Graph) : Prop :=
  g.loops = [] ∧ ∀ b ∈ g.blocks, b.mode ≠ BlockMode.loopStart ∧ b.mode ≠ BlockMode.loopEnd

/-! ### Trace predicates over the event log -/

/-- The event is a terminal transition (succeeded, failed or skipped)
of block `b`. -/
def isTermEvFor (b : Nat) : Event → Bool
  | .succeededEv x => x == b
  | .failedEv x _ => x == b
  | .skippedEv x => x == b
  | .started _ => false

/-- Number of terminal transitions of block `b` in the event log. -/
def countT (b : Nat) (evs : List Event) : Nat :=
  (evs.filter (isTermEvFor b)).length

/-- Some terminal transition of `b` appears in the log. -/
def hasTermEv (b : Nat) (evs : List Event) : Prop :=
  ∃ e ∈ evs, isTermEvFor b e = true

def isStartedEv : Event → Bool
  | .started _ => true
  | _ => false

/-- Direct data/control dependency: an edge from `a` to `b`. -/
def edgeRel (g : Graph) (a b : Nat) : Prop :=
  ∃ e ∈ g.edges, e.src = a ∧ e.dst = b

/-- The dependency-ordering trace property: whenever a started event
for `b` appears, every direct or transitive dependency of `b` already
has a terminal event strictly earlier in the log. -/
def startOK (g : Graph) (evs : List Event) : Prop :=
  ∀ pre b post, evs = pre ++ Event.started b :: post →
    ∀ p, Relation.TransGen (edgeRel g) p b → hasTermEv p pre

/-- No cancellation failure event appears in the log. -/
def noCancelEv (evs : List Event) : Prop :=
  ∀ b, Event.failedEv b .cancellationError ∉ evs

/-- After any cancellation failure event, no block dispatch (started
event) ever appears. -/
def noStartAfterCancel (evs : List Event) : Prop :=
  ∀ pre b post, evs = pre ++ Event.failedEv b .cancellationError :: post →
    ∀ b', Event.started b' ∉ post

/-- Executor invariant: statuses never stuck at `running` between
steps, only graph blocks reach terminal statuses, the event log holds
exactly one terminal transition per terminal block, the terminal set is
closed under predecessors, the dependency-ordering trace property
holds, and no cancellation event has been emitted while running. -/
structure ExecInv (g : Graph) (c : ExecCtx) : Prop where
  noRunning : ∀ x, c.statuses x ≠ .running
  termIds : ∀ x, (c.statuses x).isTerminal = true → x ∈ g.ids
  cnt : ∀ b ∈ g.ids, countT b c.events = (if (c.statuses b).isTerminal then 1 else 0)
  predClosed : ∀ e ∈ g.edges, (c.statuses e.dst).isTerminal = true →
    (c.statuses e.src).isTerminal = true
  startOk : startOK g c.events
  noCancel : noCancelEv c.events

/-! ### Retry policy (spec section 4.3) -/

/-- Events observable from a single block's retry loop. -/
inductive REvent where
  | dispatch (attempt : Nat)
  | succeededEv
  | failedEv
deriving DecidableEq, Repr

/-- Modelled from the spec: the per-block retry loop — attempt the
handler, emit a dispatch event per attempt; a success ends with one
succeeded event; once retries exhaust, a single terminal failed event
is emitted. -/
def retryGo (handler : Nat → Bool) : Nat → Nat → List REvent
  | attempt, 0 =>
      .dispatch attempt :: (if handler attempt then [.succeededEv] else [.failedEv])
  | attempt, r + 1 =>
      .dispatch attempt ::
        (if handler attempt then [.succeededEv] else retryGo handler (attempt + 1) r)

/-- Modelled from the spec: execute a block whose retry policy allows
`retries` retries (so up to `retries + 1` attempts). -/
def retryRun (handler : Nat → Bool) (retries : Nat) : List REvent :=
  retryGo handler 0 retries

def isDispatch : REvent → Bool
  | .dispatch _ => true
  | _ => false

def dispatchCount (evs : List REvent) : Nat :=
  (evs.filter isDispatch).length

/-! ### Loop regions (spec sections 4.2 rule 3 and 7) -/

/-- Outcome of driving one loop region. -/
inductive LoopOutcome (σ : Type) where
  | exited (s : σ) (iterations : Nat)
  | limitExceeded (iterations : Nat)
deriving Repr

def LoopOutcome.iterations {σ : Type} : LoopOutcome σ → Nat
  | .exited _ n => n
  | .limitExceeded n => n

/-- Modelled from the spec: drive a loop region — run the interior for
one iteration, evaluate the continuation predicate at the loop-end;
true re-enters the region, false exits; `budget` is the number of
further iterations the cap still allows, so a continuation attempt with
no budget left is the iteration-limit failure. -/
def loopGo {σ : Type} (body : σ → σ) (cond : σ → Bool) :
    Nat → σ → Nat → LoopOutcome σ
  | 0, _, done => .limitExceeded done
  | budget + 1, s, done =>
    let s' := body s
    if cond s' then loopGo body cond budget s' (done + 1)
    else .exited s' (done + 1)

/-- Modelled from the spec: a loop region under a run configured with
`maxIters` as its maximum iteration count. -/
def loopRun {σ : Type} (maxIters : Nat) (body : σ → σ) (cond : σ → Bool) (s : σ) :
    LoopOutcome σ :=
  loopGo body cond maxIters s 0

/-- Modelled from the spec: exceeding the iteration cap is a run
failure (`LoopIterationLimitExceeded`), not a silent exit. -/
def loopRunResult {σ : Type} (maxIters : Nat) (body : σ → σ) (cond : σ → Bool)
    (s : σ) : Except ErrKind (σ × Nat) :=
  match loopRun maxIters body cond s with
  | .exited s' n => .ok (s', n)
  | .limitExceeded _ => .error .loopLimitExceeded

end SimEngine

namespace SimSrc

/-! ### Health endpoint (app health route `GET` handler) -/

/-- Result of the five connectivity probes the handler records: one
trivial select per critical table, each independently caught. -/
structure HealthChecks where
  dbConnection : Bool
  tableWorkspace : Bool
  tablePermissions : Bool
  tableWorkflow : Bool
  tableWorkflowBlocks : Bool
deriving DecidableEq, Repr

def allOk (c : HealthChecks) : Bool :=
  c.dbConnection && c.tableWorkspace && c.tablePermissions
    && c.tableWorkflow && c.tableWorkflowBlocks

/-- The `GET` handler: the try body computes the checks and answers 200
`healthy` when all pass and 503 `degraded` otherwise; an exception
escaping the body is caught and answered 500 `unhealthy`.  `Except.error`
models the escaping exception. -/
def healthGET (r : Except Unit HealthChecks) : Nat × String :=
  match r with
  | .ok c => if allOk c then (200, "healthy") else (503, "degraded")
  | .error _ => (500, "unhealthy")

/-! ### Auth client base-URL resolution (`apps/sim/lib/auth-client.ts`) -/

/-- Environment visible to `getBaseURL`: the browser origin when a
window exists, and the environment variables the function consults. -/
structure AuthEnv where
  windowOrigin : Option String
  vercelEnv : Option String
  vercelUrl : Option String
  appUrl : Option String
  betterAuthUrl : Option String
  nodeEnv : Option String

/-- JavaScript string truthiness: present and non-empty. -/
def truthy : Option String → Bool
  | none => false
  | some s => !(s == "")

def orElse (o : Option String) : String := o.getD ""

/-- `getBaseURL` translated clause by clause: browser origin first;
then the explicit Vercel preview/development and production branches,
each falling through when its URLs are absent; then the generic
resolution chain; finally the localhost default (identical in both
`NODE_ENV` branches). -/
def getBaseURL (e : AuthEnv) : String :=
  if truthy e.windowOrigin then orElse e.windowOrigin
  else if (e.vercelEnv = some "preview" ∨ e.vercelEnv = some "development")
      ∧ truthy e.vercelUrl = true then
    "https://" ++ orElse e.vercelUrl
  else if e.vercelEnv = some "production" ∧ truthy e.betterAuthUrl = true then
    orElse e.betterAuthUrl
  else if e.vercelEnv = some "production" ∧ truthy e.appUrl = true then
    orElse e.appUrl
  else if e.vercelEnv = some "production" ∧ truthy e.vercelUrl = true then
    "https://" ++ orElse e.vercelUrl
  else if truthy e.betterAuthUrl then orElse e.betterAuthUrl
  else if truthy e.appUrl then orElse e.appUrl
  else if truthy e.vercelUrl then "https://" ++ orElse e.vercelUrl
  else if e.nodeEnv = some "development" then "http://localhost:3000"
  else "http://localhost:3000"

/-- An environment with no browser window, `VERCEL_ENV=development`,
a Vercel URL and `BETTER_AUTH_URL` set — the point where the literal
reading of the base-URL resolution order fails. -/
def c9Env : AuthEnv :=
  { windowOrigin := none
    vercelEnv := some "development"
    vercelUrl := some "preview-app.vercel.app"
    appUrl := none
    betterAuthUrl := some "https://auth.example.com"
    nodeEnv := none }

/-! ### Standalone migration runner (`migrate-standalone` script) -/

/-- A migration file from the migration directory: its filename and the
statements its content splits into at semicolons. -/
structure MigFile where
  name : String
  statements : List String
deriving DecidableEq

/-- Lexicographic comparison of character sequences by code point —
the order `Array.prototype.sort()` applies to the filename strings. -/
def strLeAux : List Char → List Char → Bool
  | [], _ => true
  | _ :: _, [] => false
  | a :: s, b :: t =>
    if a.toNat < b.toNat then true
    else if b.toNat < a.toNat then false
    else strLeAux s t

/-- Ascending lexicographic order on strings. -/
def strLe (a b : String) : Bool := strLeAux a.data b.data

/-- `name.endsWith('.sql')` — the candidate filter of the runner. -/
def strEndsWith (s p : String) : Bool :=
  decide (p.data.length ≤ s.data.length)
    && decide (s.data.drop (s.data.length - p.data.length) = p.data)

/-- Observable state of the migration run: files processed in order,
statements attempted in order, statements whose execution failed (the
runner logs them and continues), and hashes recorded in
`__drizzle_migrations`. -/
structure MigResult where
  processedFiles : List String
  attempted : List (String × String)
  failedStmts : List (String × String)
  recorded : List String

/-- `file.split('_')[0]` — the hash recorded for a migration file. -/
def migHash (name : String) : String := (name.splitOn "_").headD ""

/-- `INSERT ... ON CONFLICT (hash) DO NOTHING` — set-style insert. -/
def recordHash (recorded : List String) (h : String) : List String :=
  if h ∈ recorded then recorded else recorded ++ [h]

/-- Run one migration file: every non-blank statement is attempted in
order; a failing statement is logged and the loop continues; the file's
hash is recorded afterwards unconditionally. -/
def runFile (exec : String → Bool) (acc : MigResult) (f : MigFile) : MigResult :=
  let stmts := f.statements.filter (fun s => !(s.trim == ""))
  { processedFiles := acc.processedFiles ++ [f.name]
    attempted := acc.attempted ++ stmts.map (fun s => (f.name, s))
    failedStmts := acc.failedStmts ++ (stmts.filter (fun s => !exec s)).map (fun s => (f.name, s))
    recorded := recordHash acc.recorded (migHash f.name) }

/-- `readdirSync(...).filter(endsWith '.sql').sort()` — the `.sql`
files of the directory in ascending lexicographic filename order. -/
def sortedSqlFiles (files : List MigFile) : List MigFile :=
  (files.filter (fun f => strEndsWith f.name ".sql")).insertionSort
    (fun a b => strLe a.name b.name = true)

/-- The standalone migration runner `runMigrations`, with `exec` the
oracle telling which SQL statements the database accepts. -/
def runMigrations (exec : String → Bool) (files : List MigFile) : MigResult :=
  (sortedSqlFiles files).foldl (runFile exec) ⟨[], [], [], []⟩

end SimSrc

/-! # Theorems -/

namespace SimEngine

/-! ## Loop iteration cap (claim C3) -/

theorem loopGo_iterations_le {σ : Type} (body : σ → σ) (cond : σ → Bool) :
    ∀ (budget : Nat) (s : σ) (done : Nat),
      (loopGo body cond budget s done).iterations ≤ done + budget := by
  intro budget
  induction budget with
  | zero => intro s done; simp [loopGo, LoopOutcome.iterations]
  | succ n ih =>
    intro s done
    simp only [loopGo]
    cases h : cond (body s) with
    | true =>
      simp only [h, if_true]
      have := ih (body s) (done + 1)
      omega
    | false =>
      simp only [h, Bool.false_eq_true, if_false, LoopOutcome.iterations]
      omega

theorem loopGo_limit {σ : Type} (body : σ → σ) (cond : σ → Bool) :
    ∀ (budget : Nat) (s : σ) (done : Nat),
      (∀ k, 1 ≤ k → k ≤ budget → cond (body^[k] s) = true) →
      loopGo body cond budget s done = .limitExceeded (done + budget) := by
  intro budget
  induction budget with
  | zero => intro s done _; simp [loopGo]
  | succ n ih =>
    intro s done hc
    have h1 : cond (body s) = true := by
      have := hc 1 (le_refl 1) (by omega)
      simpa using this
    simp only [loopGo, h1, if_true]
    have := ih (body s) (done + 1) (fun k hk1 hk2 => by
      have := hc (k + 1) (by omega) (by omega)
      rwa [Function.iterate_succ_apply] at this)
    rw [this]
    congr 1
    omega

/-- Claim C3: for every run configured with `maxLoopIterations = N`, a
loop region's interior executes at most `N` iterations, and when the
continuation predicate still holds after each allowed iteration the
next continuation attempt fails the run with
`LoopIterationLimitExceeded` instead of silently exiting the loop. -/
theorem claim_c3_loop_iteration_cap {σ : Type} (N : Nat) (body : σ → σ)
    (cond : σ → Bool) (s : σ) :
    (loopRun N body cond s).iterations ≤ N ∧
    ((∀ k, 1 ≤ k → k ≤ N → cond (body^[k] s) = true) →
      loopRun N body cond s = .limitExceeded N ∧
      loopRunResult N body cond s = .error .loopLimitExceeded) := by
  constructor
  · have := loopGo_iterations_le body cond N s 0
    simpa [loopRun] using this
  · intro hc
    have h := loopGo_limit body cond N s 0 hc
    have h' : loopRun N body cond s = .limitExceeded N := by
      simpa [loopRun] using h
    exact ⟨h', by simp [loopRunResult, h']⟩

/-- Witness for claim C3: with cap 2 and an always-true continuation
predicate the loop performs at most 2 iterations and the run fails with
the iteration-limit error. -/
theorem claim_c3_witness :
    (loopRun 2 (fun n : Nat => n + 1) (fun _ => true) 0).iterations ≤ 2 ∧
    loopRun 2 (fun n : Nat => n + 1) (fun _ => true) 0 = .limitExceeded 2 ∧
    loopRunResult 2 (fun n : Nat => n + 1) (fun _ => true) 0 = .error .loopLimitExceeded := by
  have h := claim_c3_loop_iteration_cap 2 (fun n : Nat => n + 1) (fun _ => true) 0
  have h2 := h.2 (fun k _ _ => rfl)
  exact ⟨h.1, h2.1, h2.2⟩

/-! ## Retry policy (claim C4) -/

theorem retryGo_dispatchCount_le (handler : Nat → Bool) :
    ∀ (r a : Nat), dispatchCount (retryGo handler a r) ≤ r + 1 := by
  intro r
  induction r with
  | zero =>
    intro a
    by_cases h : handler a = true <;>
      simp [retryGo, h, dispatchCount, isDispatch, List.filter]
  | succ n ih =>
    intro a
    by_cases h : handler a = true
    · simp [retryGo, h, dispatchCount, isDispatch, List.filter]
    · simp only [retryGo, h, Bool.false_eq_true, if_false]
      have := ih (a + 1)
      simp only [dispatchCount, List.filter_cons, isDispatch, if_true,
        List.length_cons] at *
      omega

theorem retryGo_failed_iff (handler : Nat → Bool) :
    ∀ (r a : Nat),
      REvent.failedEv ∈ retryGo handler a r ↔ ∀ i, i ≤ r → handler (a + i) = false := by
  intro r
  induction r with
  | zero =>
    intro a
    by_cases h : handler a = true
    · simp only [retryGo, h, if_true]
      constructor
      · intro hmem; simp at hmem
      · intro hall
        have := hall 0 (le_refl 0)
        simp [h] at this
    · simp only [retryGo, h]
      constructor
      · intro _ i hi
        interval_cases i
        simpa using h
      · intro _; simp
  | succ n ih =>
    intro a
    by_cases h : handler a = true
    · simp only [retryGo, h, if_true]
      constructor
      · intro hmem; simp at hmem
      · intro hall
        have := hall 0 (by omega)
        simp [h] at this
    · simp only [retryGo, h]
      constructor
      · intro hmem i hi
        have hmem' : REvent.failedEv ∈ retryGo handler (a + 1) n := by
          simpa using hmem
        rcases Nat.eq_zero_or_pos i with hz | hpos
        · subst hz; simpa using h
        · have := (ih (a + 1)).mp hmem' (i - 1) (by omega)
          have harith : a + 1 + (i - 1) = a + i := by omega
          rwa [harith] at this
      · intro hall
        have : REvent.failedEv ∈ retryGo handler (a + 1) n := by
          refine (ih (a + 1)).mpr ?_
          intro i hi
          have := hall (i + 1) (by omega)
          have harith : a + (i + 1) = a + 1 + i := by omega
          rwa [harith] at this
        simp [this]

theorem retryGo_allFail_count (handler : Nat → Bool) :
    ∀ (r a : Nat), (∀ i, i ≤ r → handler (a + i) = false) →
      dispatchCount (retryGo handler a r) = r + 1 := by
  intro r
  induction r with
  | zero =>
    intro a hall
    have h : handler a = false := by simpa using hall 0 (le_refl 0)
    simp [retryGo, h, dispatchCount, isDispatch, List.filter]
  | succ n ih =>
    intro a hall
    have h : handler a = false := by simpa using hall 0 (by omega)
    have hrest : ∀ i, i ≤ n → handler (a + 1 + i) = false := by
      intro i hi
      have := hall (i + 1) (by omega)
      have harith : a + (i + 1) = a + 1 + i := by omega
      rwa [harith] at this
    have := ih (a + 1) hrest
    simp only [retryGo, h, Bool.false_eq_true, if_false]
    simp only [dispatchCount, List.filter_cons, isDispatch, if_true,
      List.length_cons] at *
    omega

/-- Claim C4: with a retry policy allowing `R` retries the executor
dispatches the handler at most `R + 1` times; a terminal failed event
appears only when all `R + 1` attempts failed (and then exactly `R + 1`
dispatches happened); no failed event is emitted when some attempt
succeeds; and in the concrete scenario of 2 retries with a handler
failing twice then succeeding, the event log is exactly three
dispatches followed by one succeeded event. -/
theorem claim_c4_retry_policy (handler : Nat → Bool) (R : Nat) :
    dispatchCount (retryRun handler R) ≤ R + 1 ∧
    (REvent.failedEv ∈ retryRun handler R →
      (∀ i, i ≤ R → handler i = false) ∧ dispatchCount (retryRun handler R) = R + 1) ∧
    ((∃ i, i ≤ R ∧ handler i = true) → REvent.failedEv ∉ retryRun handler R) ∧
    retryRun (fun i => decide (2 ≤ i)) 2 =
      [.dispatch 0, .dispatch 1, .dispatch 2, .succeededEv] := by
  refine ⟨retryGo_dispatchCount_le handler R 0, ?_, ?_, by rfl⟩
  · intro hmem
    have hall := (retryGo_failed_iff handler R 0).mp hmem
    have hall' : ∀ i, i ≤ R → handler i = false := by
      intro i hi; simpa using hall i hi
    exact ⟨hall', by
      have := retryGo_allFail_count handler R 0 hall
      simpa [retryRun] using this⟩
  · rintro ⟨i, hi, hsucc⟩ hmem
    have hall := (retryGo_failed_iff handler R 0).mp hmem
    have := hall i hi
    simp [hsucc] at this

/-- Witness for claim C4: the scenario handler (fails on attempts 0 and
1, succeeds on attempt 2) emits no failed event, and its dispatch count
obeys the bound. -/
theorem claim_c4_witness :
    dispatchCount (retryRun (fun i => decide (2 ≤ i)) 2) ≤ 3 ∧
    REvent.failedEv ∉ retryRun (fun i => decide (2 ≤ i)) 2 := by
  have h := claim_c4_retry_policy (fun i => decide (2 ≤ i)) 2
  exact ⟨h.1, h.2.2.1 ⟨2, le_refl 2, by decide⟩⟩

end SimEngine

namespace SimSrc

/-! ## Health endpoint (claim C8) -/

/-- Claim C8: the health handler answers 200 `healthy` exactly when all
five recorded checks succeed, 503 `degraded` when at least one check
fails, and 500 `unhealthy` when an exception escapes the handler
body. -/
theorem claim_c8_health (r : Except Unit HealthChecks) :
    (healthGET r = (200, "healthy") ↔ ∃ c, r = .ok c ∧
      (c.dbConnection = true ∧ c.tableWorkspace = true ∧ c.tablePermissions = true ∧
        c.tableWorkflow = true ∧ c.tableWorkflowBlocks = true)) ∧
    (∀ c, r = .ok c → allOk c = false → healthGET r = (503, "degraded")) ∧
    (∀ u, r = .error u → healthGET r = (500, "unhealthy")) := by
  refine ⟨?_, ?_, ?_⟩
  · constructor
    · intro h200
      cases r with
      | ok c =>
        refine ⟨c, rfl, ?_⟩
        by_cases h : allOk c = true
        · have hb := h
          simp only [allOk, Bool.and_eq_true] at hb
          exact ⟨hb.1.1.1.1, hb.1.1.1.2, hb.1.1.2, hb.1.2, hb.2⟩
        · simp [healthGET, h] at h200
      | error u => simp [healthGET] at h200
    · rintro ⟨c, hr, h1, h2, h3, h4, h5⟩
      subst hr
      simp [healthGET, allOk, h1, h2, h3, h4, h5]
  · intro c hc hnot
    subst hc
    simp [healthGET, hnot]
  · intro u hu
    subst hu
    rfl

/-- Witness for claim C8: all checks passing yields 200 `healthy`, one
failing check yields 503 `degraded`, an escaping exception yields 500
`unhealthy`. -/
theorem claim_c8_witness :
    healthGET (.ok ⟨true, true, true, true, true⟩) = (200, "healthy") ∧
    healthGET (.ok ⟨true, false, true, true, true⟩) = (503, "degraded") ∧
    healthGET (.error ()) = (500, "unhealthy") := by
  refine ⟨?_, ?_, ?_⟩
  · exact (claim_c8_health (.ok ⟨true, true, true, true, true⟩)).1.mpr
      ⟨_, rfl, by decide⟩
  · exact (claim_c8_health (.ok ⟨true, false, true, true, true⟩)).2.1 _ rfl (by decide)
  · exact (claim_c8_health (.error ())).2.2 () rfl

end SimSrc

namespace SimSrc

/-! ## Auth-client base URL (claim C9) -/

theorem string_append_data (s t : String) : (s ++ t).data = s.data ++ t.data := by
  cases s; cases t; rfl

theorem https_append_ne_empty (t : String) : "https://" ++ t ≠ "" := by
  intro h
  have hd := congrArg String.data h
  rw [string_append_data] at hd
  have : ("https://" : String).data = [] := (List.append_eq_nil.mp hd).1
  simp at this

theorem truthy_orElse_ne_empty (o : Option String) (h : truthy o = true) :
    orElse o ≠ "" := by
  cases o with
  | none => simp [truthy] at h
  | some s =>
    simp only [truthy, Bool.not_eq_true'] at h
    simpa [orElse] using fun hs => by simp [hs] at h

/-- Counterexample to claim C9 as stated: outside the literal `preview`
and `production` Vercel environments, with `BETTER_AUTH_URL` set, the
code does not return `BETTER_AUTH_URL` — with `VERCEL_ENV=development`
the explicit branch returns `https://` plus the Vercel URL first. -/
theorem claim_c9_counterexample :
    ¬ (∀ e : AuthEnv, truthy e.windowOrigin = false →
        e.vercelEnv ≠ some "preview" → e.vercelEnv ≠ some "production" →
        truthy e.betterAuthUrl = true → getBaseURL e = orElse e.betterAuthUrl) := by
  intro hclaim
  have h := hclaim c9Env rfl (by simp [c9Env]) (by simp [c9Env]) rfl
  have hval : getBaseURL c9Env = "https://preview-app.vercel.app" := by rfl
  rw [hval] at h
  have : ("https://preview-app.vercel.app" : String) ≠ orElse c9Env.betterAuthUrl := by
    simp [c9Env, orElse]
  exact this h

/-- Claim C9 as amended: `getBaseURL` always returns a non-empty URL —
the browser origin when available; otherwise, outside the explicit
Vercel preview/development/production branches, `BETTER_AUTH_URL` if
set, else `NEXT_PUBLIC_APP_URL`, else `https://` prepended to
`NEXT_PUBLIC_VERCEL_URL`, else `http://localhost:3000`. -/
theorem claim_c9_amended (e : AuthEnv) :
    getBaseURL e ≠ "" ∧
    (truthy e.windowOrigin = true → getBaseURL e = orElse e.windowOrigin) ∧
    (truthy e.windowOrigin = false →
      e.vercelEnv ≠ some "preview" → e.vercelEnv ≠ some "development" →
      e.vercelEnv ≠ some "production" →
      getBaseURL e =
        (if truthy e.betterAuthUrl = true then orElse e.betterAuthUrl
         else if truthy e.appUrl = true then orElse e.appUrl
         else if truthy e.vercelUrl = true then "https://" ++ orElse e.vercelUrl
         else "http://localhost:3000")) := by
  refine ⟨?_, ?_, ?_⟩
  · unfold getBaseURL
    split_ifs with h1 h2 h3 h4 h5 h6 h7 h8 h9
    · exact truthy_orElse_ne_empty _ h1
    · exact https_append_ne_empty _
    · exact truthy_orElse_ne_empty _ h3.2
    · exact truthy_orElse_ne_empty _ h4.2
    · exact https_append_ne_empty _
    · exact truthy_orElse_ne_empty _ h6
    · exact truthy_orElse_ne_empty _ h7
    · exact https_append_ne_empty _
    · simp
    · simp
  · intro h
    unfold getBaseURL
    rw [if_pos h]
  · intro hw hp hd hq
    unfold getBaseURL
    rw [if_neg (by simp [hw]),
      if_neg (fun h => h.1.elim hp hd),
      if_neg (fun h => hq h.1),
      if_neg (fun h => hq h.1),
      if_neg (fun h => hq h.1)]
    simp only [ite_self]

/-- Witness for amended claim C9: an empty environment resolves to the
localhost fallback, and a browser environment resolves to the window
origin. -/
theorem claim_c9_witness :
    getBaseURL ⟨none, none, none, none, none, none⟩ = "http://localhost:3000" ∧
    getBaseURL ⟨none, none, none, none, none, none⟩ ≠ "" ∧
    getBaseURL ⟨some "http://app.local", none, none, none, none, none⟩ =
      "http://app.local" := by
  refine ⟨?_, (claim_c9_amended _).1, ?_⟩
  · have h := (claim_c9_amended ⟨none, none, none, none, none, none⟩).2.2
      rfl (by simp) (by simp) (by simp)
    simpa [truthy] using h
  · have h := (claim_c9_amended ⟨some "http://app.local", none, none, none, none, none⟩).2.1
      (by simp [truthy])
    simpa [orElse] using h

/-! ## Migration runner (claim C10) -/

theorem recordHash_mem (recorded : List String) (h : String) :
    h ∈ recordHash recorded h := by
  unfold recordHash
  split_ifs with hmem
  · exact hmem
  · simp

theorem recordHash_mono (recorded : List String) (h x : String)
    (hx : x ∈ recorded) : x ∈ recordHash recorded h := by
  unfold recordHash
  split_ifs
  · exact hx
  · simp [hx]

theorem strLeAux_total : ∀ s t, strLeAux s t = true ∨ strLeAux t s = true := by
  intro s
  induction s with
  | nil => intro t; left; rfl
  | cons a s ih =>
    intro t
    cases t with
    | nil => right; rfl
    | cons b t =>
      by_cases hab : a.toNat < b.toNat
      · left; simp [strLeAux, hab]
      · by_cases hba : b.toNat < a.toNat
        · right; simp [strLeAux, hba]
        · rcases ih t with h | h
          · left; simp [strLeAux, hab, hba, h]
          · right; simp [strLeAux, hab, hba, h]

theorem strLeAux_trans :
    ∀ s t u, strLeAux s t = true → strLeAux t u = true → strLeAux s u = true := by
  intro s
  induction s with
  | nil => intro t u _ _; rfl
  | cons a s ih =>
    intro t u hst htu
    cases t with
    | nil => simp [strLeAux] at hst
    | cons b t =>
      cases u with
      | nil => simp [strLeAux] at htu
      | cons c u =>
        simp only [strLeAux] at hst htu ⊢
        by_cases hab : a.toNat < b.toNat
        · by_cases hbc : b.toNat < c.toNat
          · simp [show a.toNat < c.toNat by omega]
          · by_cases hcb : c.toNat < b.toNat
            · simp [hbc, hcb] at htu
            · simp [show a.toNat < c.toNat by omega]
        · by_cases hba : b.toNat < a.toNat
          · simp [hab, hba] at hst
          · by_cases hbc : b.toNat < c.toNat
            · simp [show a.toNat < c.toNat by omega]
            · by_cases hcb : c.toNat < b.toNat
              · simp [hbc, hcb] at htu
              · have hac : ¬ a.toNat < c.toNat := by omega
                have hca : ¬ c.toNat < a.toNat := by omega
                simp only [hab, hba, if_false] at hst
                simp only [hbc, hcb, if_false] at htu
                simp [hac, hca, ih t u hst htu]

theorem mig_foldl_spec (exec : String → Bool) :
    ∀ (fs : List MigFile) (acc : MigResult),
      (fs.foldl (runFile exec) acc).processedFiles
          = acc.processedFiles ++ fs.map MigFile.name ∧
      (fs.foldl (runFile exec) acc).attempted
          = acc.attempted ++ fs.flatMap (fun f =>
              (f.statements.filter (fun s => !(s.trim == ""))).map (fun s => (f.name, s))) ∧
      (fs.foldl (runFile exec) acc).failedStmts
          = acc.failedStmts ++ fs.flatMap (fun f =>
              ((f.statements.filter (fun s => !(s.trim == ""))).filter
                (fun s => !exec s)).map (fun s => (f.name, s))) ∧
      (∀ x ∈ acc.recorded, x ∈ (fs.foldl (runFile exec) acc).recorded) ∧
      (∀ f ∈ fs, migHash f.name ∈ (fs.foldl (runFile exec) acc).recorded) := by
  intro fs
  induction fs with
  | nil => intro acc; simp
  | cons f rest ih =>
    intro acc
    have ihr := ih (runFile exec acc f)
    refine ⟨?_, ?_, ?_, ?_, ?_⟩
    · rw [List.foldl_cons, ihr.1]
      simp [runFile]
    · rw [List.foldl_cons, ihr.2.1]
      simp [runFile]
    · rw [List.foldl_cons, ihr.2.2.1]
      simp [runFile]
    · intro x hx
      rw [List.foldl_cons]
      exact ihr.2.2.2.1 x (recordHash_mono _ _ _ hx)
    · intro f' hf'
      rw [List.foldl_cons]
      rcases List.mem_cons.mp hf' with hf' | hf'
      · subst hf'
        exact ihr.2.2.2.1 _ (recordHash_mem _ _)
      · exact ihr.2.2.2.2 f' hf'

/-- Claim C10: the standalone migration runner processes exactly the
`.sql` files in ascending lexicographic filename order; every non-blank
statement of every file is attempted no matter which statements fail
(failures are logged and the loop continues); and each file's hash is
recorded in `__drizzle_migrations` even when some of its statements
failed. -/
theorem claim_c10_migrations (exec : String → Bool) (files : List MigFile) :
    (runMigrations exec files).processedFiles = (sortedSqlFiles files).map MigFile.name ∧
    List.Sorted (fun a b => strLe a b = true) (runMigrations exec files).processedFiles ∧
    (runMigrations exec files).attempted = (sortedSqlFiles files).flatMap (fun f =>
      (f.statements.filter (fun s => !(s.trim == ""))).map (fun s => (f.name, s))) ∧
    (runMigrations exec files).failedStmts = (sortedSqlFiles files).flatMap (fun f =>
      ((f.statements.filter (fun s => !(s.trim == ""))).filter
        (fun s => !exec s)).map (fun s => (f.name, s))) ∧
    ∀ f ∈ sortedSqlFiles files, migHash f.name ∈ (runMigrations exec files).recorded := by
  have h := mig_foldl_spec exec (sortedSqlFiles files) ⟨[], [], [], []⟩
  have h1 : (runMigrations exec files).processedFiles
      = (sortedSqlFiles files).map MigFile.name := by
    simpa [runMigrations] using h.1
  refine ⟨h1, ?_, by simpa [runMigrations] using h.2.1,
    by simpa [runMigrations] using h.2.2.1, h.2.2.2.2⟩
  rw [h1]
  haveI htot : IsTotal MigFile (fun a b => strLe a.name b.name = true) :=
    ⟨fun a b => strLeAux_total a.name.data b.name.data⟩
  haveI htr : IsTrans MigFile (fun a b => strLe a.name b.name = true) :=
    ⟨fun _ _ _ hab hbc => strLeAux_trans _ _ _ hab hbc⟩
  have hs := List.sorted_insertionSort (fun a b : MigFile => strLe a.name b.name = true)
    (files.filter (fun f => strEndsWith f.name ".sql"))
  have hp : List.Pairwise (fun a b : String => strLe a b = true)
      ((sortedSqlFiles files).map MigFile.name) := by
    rw [List.pairwise_map]
    exact hs
  exact hp

/-- Witness for claim C10: two files, a failing statement in the first
— both files still run in sorted order and both hashes are
recorded. -/
theorem claim_c10_witness :
    migHash "0001_a.sql" ∈ (runMigrations (fun s => decide (s ≠ "BAD"))
      [⟨"0002_b.sql", ["CREATE TABLE x"]⟩, ⟨"0001_a.sql", ["BAD", "CREATE TABLE y"]⟩]).recorded ∧
    (runMigrations (fun s => decide (s ≠ "BAD"))
      [⟨"0002_b.sql", ["CREATE TABLE x"]⟩, ⟨"0001_a.sql", ["BAD", "CREATE TABLE y"]⟩]).processedFiles
      = ["0001_a.sql", "0002_b.sql"] := by
  constructor
  · exact (claim_c10_migrations (fun s => decide (s ≠ "BAD"))
      [⟨"0002_b.sql", ["CREATE TABLE x"]⟩, ⟨"0001_a.sql", ["BAD", "CREATE TABLE y"]⟩]).2.2.2.2
      ⟨"0001_a.sql", ["BAD", "CREATE TABLE y"]⟩ (by decide)
  · refine ((claim_c10_migrations (fun s => decide (s ≠ "BAD"))
      [⟨"0002_b.sql", ["CREATE TABLE x"]⟩, ⟨"0001_a.sql", ["BAD", "CREATE TABLE y"]⟩]).1).trans ?_
    decide

end SimSrc

namespace SimEngine

/-! ## Scheduler purity (claim C6) -/

/-- Claim C6: the Scheduler is a pure, deterministic function of the
pair (Graph, Execution Context): equal inputs give equal eligible sets,
and it reads nothing outside the context — indeed only the block
statuses and variable bindings stored there, never the clock, the event
log, the error map or the cancellation flag. -/
theorem claim_c6_scheduler_pure :
    (∀ (g g' : Graph) (c c' : ExecCtx), g = g' → c = c' →
      eligible g c = eligible g' c') ∧
    (∀ (g : Graph) (c c' : ExecCtx), c.statuses = c'.statuses → c.vars = c'.vars →
      eligible g c = eligible g c') := by
  constructor
  · intro g g' c c' hg hc
    subst hg; subst hc; rfl
  · intro g c c' hs hv
    unfold eligible
    rw [hs, hv]

/-- Witness for claim C6: on a concrete graph the eligible set is
unchanged by a context that differs in clock, events, errors and the
cancellation flag but agrees on statuses and bindings. -/
theorem claim_c6_witness :
    eligible ⟨[⟨0, "cap", .normal⟩], [], [], 0⟩ (initCtx []) =
      eligible ⟨[⟨0, "cap", .normal⟩], [], [], 0⟩
        { initCtx [] with
            clock := 99
            events := [.started 0]
            errors := fun _ => some .handlerError
            cancelled := true } :=
  claim_c6_scheduler_pure.2 _ _ _ rfl rfl

/-! ## Topological order and Kahn peeling (for claims C7 and C1) -/

theorem listIdx_lt_length_of_mem : ∀ {l : List Nat} {a : Nat}, a ∈ l →
    listIdx l a < l.length := by
  intro l
  induction l with
  | nil => intro a h; cases h
  | cons x t ih =>
    intro a h
    by_cases hx : x = a
    · simp [listIdx, hx]
    · rcases List.mem_cons.mp h with h | h
      · exact absurd h.symm hx
      · simp only [listIdx, hx, if_false, List.length_cons]
        exact Nat.succ_lt_succ (ih h)

theorem listIdx_of_not_mem : ∀ {l : List Nat} {a : Nat}, a ∉ l →
    listIdx l a = l.length := by
  intro l
  induction l with
  | nil => intro a _; rfl
  | cons x t ih =>
    intro a h
    have hx : x ≠ a := fun heq => h (heq ▸ List.mem_cons_self x t)
    have ht : a ∉ t := fun hmem => h (List.mem_cons_of_mem x hmem)
    simp [listIdx, hx, ih ht]

theorem listIdx_append_left : ∀ {l : List Nat} (l' : List Nat) {a : Nat}, a ∈ l →
    listIdx (l ++ l') a = listIdx l a := by
  intro l
  induction l with
  | nil => intro l' a h; cases h
  | cons x t ih =>
    intro l' a h
    by_cases hx : x = a
    · simp [listIdx, hx]
    · rcases List.mem_cons.mp h with h | h
      · exact absurd h.symm hx
      · simp [listIdx, hx, ih l' h]

theorem listIdx_append_right : ∀ {l : List Nat} (l' : List Nat) {a : Nat}, a ∉ l →
    listIdx (l ++ l') a = l.length + listIdx l' a := by
  intro l
  induction l with
  | nil => intro l' a _; simp
  | cons x t ih =>
    intro l' a h
    have hx : x ≠ a := fun heq => h (heq ▸ List.mem_cons_self x t)
    have ht : a ∉ t := fun hmem => h (List.mem_cons_of_mem x hmem)
    simp only [List.cons_append, listIdx, hx, if_false, List.length_cons,
      List.append_eq]
    rw [ih l' ht]
    omega

theorem exists_listIdx_min (f : Nat → Nat) :
    ∀ (l : List Nat), l ≠ [] → ∃ b ∈ l, ∀ x ∈ l, f b ≤ f x := by
  intro l
  induction l with
  | nil => intro h; exact absurd rfl h
  | cons x t ih =>
    intro _
    cases t with
    | nil =>
      refine ⟨x, List.mem_cons_self x [], ?_⟩
      intro y hy
      rcases List.mem_cons.mp hy with hy | hy
      · exact hy ▸ le_refl _
      · cases hy
    | cons z zs =>
      obtain ⟨b, hb, hmin⟩ := ih (by simp)
      by_cases hle : f x ≤ f b
      · refine ⟨x, List.mem_cons_self x _, ?_⟩
        intro y hy
        rcases List.mem_cons.mp hy with hy | hy
        · exact hy ▸ le_refl _
        · exact le_trans hle (hmin y hy)
      · refine ⟨b, List.mem_cons_of_mem x hb, ?_⟩
        intro y hy
        rcases List.mem_cons.mp hy with hy | hy
        · exact hy ▸ le_of_not_le hle
        · exact hmin y hy

theorem kahnGo_sound (prs : List (Nat × Nat)) (ids : List Nat) :
    ∀ (fuel : Nat) (alive acc order : List Nat),
      (∀ x, x ∈ ids ↔ (x ∈ alive ∨ x ∈ acc)) →
      alive.Nodup → acc.Nodup → (∀ x ∈ alive, x ∉ acc) →
      (∀ p ∈ prs, p.1 ∈ ids → p.2 ∈ acc →
        p.1 ∈ acc ∧ listIdx acc p.1 < listIdx acc p.2) →
      kahnGo prs fuel alive acc = some order →
      TopoOrderOn ids prs order := by
  intro fuel
  induction fuel with
  | zero =>
    intro alive acc order hmem hna hnc hdisj hord hrun
    simp only [kahnGo] at hrun
    by_cases he : alive.isEmpty
    · rw [if_pos he] at hrun
      obtain rfl : acc = order := by injection hrun
      have halive : alive = [] := List.isEmpty_iff.mp he
      subst halive
      refine ⟨?_, ?_, hnc, ?_⟩
      · intro b hb
        rcases (hmem b).mp hb with h | h
        · cases h
        · exact h
      · intro b hb
        exact (hmem b).mpr (Or.inr hb)
      · intro p hp h1 h2
        have h2' : p.2 ∈ acc := by
          rcases (hmem p.2).mp h2 with h | h
          · cases h
          · exact h
        exact (hord p hp h1 h2').2
    · rw [if_neg he] at hrun
      cases hrun
  | succ n ih =>
    intro alive acc order hmem hna hnc hdisj hord hrun
    simp only [kahnGo] at hrun
    by_cases he : alive.isEmpty
    · rw [if_pos he] at hrun
      obtain rfl : acc = order := by injection hrun
      have halive : alive = [] := List.isEmpty_iff.mp he
      subst halive
      refine ⟨?_, ?_, hnc, ?_⟩
      · intro b hb
        rcases (hmem b).mp hb with h | h
        · cases h
        · exact h
      · intro b hb
        exact (hmem b).mpr (Or.inr hb)
      · intro p hp h1 h2
        have h2' : p.2 ∈ acc := by
          rcases (hmem p.2).mp h2 with h | h
          · cases h
          · exact h
        exact (hord p hp h1 h2').2
    · rw [if_neg he] at hrun
      cases hfind : alive.find? (noIncoming prs alive) with
      | none => rw [hfind] at hrun; cases hrun
      | some b =>
        rw [hfind] at hrun
        have hbmem : b ∈ alive := List.mem_of_find?_eq_some hfind
        have hbno : noIncoming prs alive b = true := List.find?_some hfind
        have hbnacc : b ∉ acc := hdisj b hbmem
        refine ih (alive.erase b) (acc ++ [b]) order ?_ ?_ ?_ ?_ ?_ hrun
        · intro x
          constructor
          · intro hx
            rcases (hmem x).mp hx with hxa | hxc
            · by_cases hxb : x = b
              · exact Or.inr (by simp [hxb])
              · exact Or.inl (hna.mem_erase_iff.mpr ⟨hxb, hxa⟩)
            · exact Or.inr (List.mem_append_left [b] hxc)
          · intro hx
            rcases hx with hxa | hxc
            · exact (hmem x).mpr (Or.inl (hna.mem_erase_iff.mp hxa).2)
            · rcases List.mem_append.mp hxc with hxc | hxc
              · exact (hmem x).mpr (Or.inr hxc)
              · have : x = b := by simpa using hxc
                exact (hmem x).mpr (Or.inl (this ▸ hbmem))
        · exact hna.erase b
        · refine List.nodup_append.mpr ⟨hnc, List.nodup_singleton b, ?_⟩
          intro x hxc hxb
          have : x = b := by simpa using hxb
          exact hbnacc (this ▸ hxc)
        · intro x hxa
          have hx := hna.mem_erase_iff.mp hxa
          intro hxc
          rcases List.mem_append.mp hxc with hxc | hxc
          · exact hdisj x hx.2 hxc
          · exact hx.1 (by simpa using hxc)
        · intro p hp h1 h2
          rcases List.mem_append.mp h2 with h2c | h2b
          · obtain ⟨hin, hlt⟩ := hord p hp h1 h2c
            refine ⟨List.mem_append_left [b] hin, ?_⟩
            rw [listIdx_append_left [b] hin, listIdx_append_left [b] h2c]
            exact hlt
          · have h2b' : p.2 = b := by simpa using h2b
            have hnal : p.1 ∉ alive := by
              have := (List.all_eq_true.mp hbno) p hp
              exact (of_decide_eq_true this) h2b'
            have h1acc : p.1 ∈ acc := by
              rcases (hmem p.1).mp h1 with h | h
              · exact absurd h hnal
              · exact h
            refine ⟨List.mem_append_left [b] h1acc, ?_⟩
            rw [listIdx_append_left [b] h1acc, h2b',
              listIdx_append_right [b] hbnacc]
            have := listIdx_lt_length_of_mem h1acc
            simp only [listIdx]
            omega

theorem kahnGo_complete (prs : List (Nat × Nat)) (ids order : List Nat)
    (hord : TopoOrderOn ids prs order) :
    ∀ (fuel : Nat) (alive acc : List Nat),
      alive.length ≤ fuel → (∀ x ∈ alive, x ∈ ids) → alive.Nodup →
      ∃ res, kahnGo prs fuel alive acc = some res := by
  intro fuel
  induction fuel with
  | zero =>
    intro alive acc hlen _ _
    have : alive = [] := List.length_eq_zero.mp (Nat.le_zero.mp hlen)
    subst this
    exact ⟨acc, rfl⟩
  | succ n ih =>
    intro alive acc hlen hsub hnd
    by_cases he : alive.isEmpty
    · exact ⟨acc, by simp [kahnGo, he]⟩
    · have hne : alive ≠ [] := fun h => by simp [h] at he
      obtain ⟨b, hb, hmin⟩ := exists_listIdx_min (listIdx order) alive hne
      have hbno : noIncoming prs alive b = true := by
        refine List.all_eq_true.mpr ?_
        intro p hp
        refine decide_eq_true ?_
        intro hp2 hp1
        have h1 : p.1 ∈ ids := hsub p.1 hp1
        have h2 : p.2 ∈ ids := by rw [hp2]; exact hsub b hb
        have hlt := hord.2.2.2 p hp h1 h2
        rw [hp2] at hlt
        exact absurd hlt (not_lt.mpr (hmin p.1 hp1))
      have hfind : (alive.find? (noIncoming prs alive)).isSome = true :=
        List.find?_isSome.mpr ⟨b, hb, hbno⟩
      obtain ⟨b', hb'⟩ := Option.isSome_iff_exists.mp hfind
      have hb'mem : b' ∈ alive := List.mem_of_find?_eq_some hb'
      have hlen' : (alive.erase b').length ≤ n := by
        have := List.length_erase_add_one hb'mem
        omega
      obtain ⟨res, hres⟩ := ih (alive.erase b') (acc ++ [b']) hlen'
        (fun x hx => hsub x (hnd.mem_erase_iff.mp hx).2) (hnd.erase b')
      refine ⟨res, ?_⟩
      simp only [kahnGo, he, if_false, hb']
      exact hres

/-- The Kahn-style check succeeds exactly when a topological order
exists. -/
theorem kahnSort_iff (ids : List Nat) (prs : List (Nat × Nat)) (hnd : ids.Nodup) :
    (kahnSort ids prs).isSome = true ↔ ∃ order, TopoOrderOn ids prs order := by
  constructor
  · intro h
    obtain ⟨order, horder⟩ := Option.isSome_iff_exists.mp h
    refine ⟨order, ?_⟩
    refine kahnGo_sound prs ids ids.length ids [] order ?_ hnd List.nodup_nil
      (fun x _ => List.not_mem_nil x) (fun p _ _ h2 => absurd h2 (List.not_mem_nil p.2))
      horder
    intro x; simp
  · rintro ⟨order, hord⟩
    obtain ⟨res, hres⟩ := kahnGo_complete prs ids order hord ids.length ids []
      (le_refl _) (fun x hx => hx) hnd
    simp [kahnSort, hres]

end SimEngine

namespace SimEngine

/-! ## Graph validation (claim C7) -/

/-- Characterization of successful validation by the five checks of
spec section 4.1, the acyclicity check expressed as existence of a
topological order. -/
theorem validate_ok_iff (g : Graph) :
    (∃ g', validate g = .ok g') ↔
      (g.ids.Nodup ∧ (∀ e ∈ g.edges, e.src ∈ g.ids ∧ e.dst ∈ g.ids) ∧
        loopRegionCheck g = true ∧
        (∃ order, TopoOrderOn g.ids (uncondCollapsedPairs g) order) ∧
        reachCheck g = true) := by
  constructor
  · rintro ⟨g', hok⟩
    simp only [validate] at hok
    split_ifs at hok with h1 h2 h3 h4 h5
    simp only [Bool.not_eq_true, Bool.not_eq_false, Bool.not_eq_false',
      Bool.not_eq_true'] at h1 h2 h3 h4 h5
    have hnd : g.ids.Nodup := of_decide_eq_true h1
    refine ⟨hnd, ?_, h3, ?_, h5⟩
    · intro e he
      have := List.all_eq_true.mp h2 e he
      rw [Bool.and_eq_true] at this
      exact ⟨of_decide_eq_true this.1, of_decide_eq_true this.2⟩
    · exact (kahnSort_iff g.ids (uncondCollapsedPairs g) hnd).mp h4
  · rintro ⟨hnd, hend, hloop, hacy, hreach⟩
    have c1 : uniqueIdsCheck g = true := decide_eq_true hnd
    have c2 : endpointsCheck g = true := by
      refine List.all_eq_true.mpr ?_
      intro e he
      rw [Bool.and_eq_true]
      exact ⟨decide_eq_true (hend e he).1, decide_eq_true (hend e he).2⟩
    have c4 : acyclicCheck g = true :=
      (kahnSort_iff g.ids (uncondCollapsedPairs g) hnd).mpr hacy
    exact ⟨g, by simp [validate, c1, c2, hloop, c4, hreach]⟩

/-- Claim C7: `validate` returns a `ValidationError` — and `startRun`
never starts a run — exactly when the graph violates one of the five
checks: block-id uniqueness, edge endpoints referencing existing
blocks, loop-region well-formedness, absence of unconditional cycles
outside loop regions, or reachability of every block from the entry
block; otherwise it returns the validated graph. -/
theorem claim_c7_validation (g : Graph) :
    ((∃ g', validate g = .ok g') ↔
      (g.ids.Nodup ∧ (∀ e ∈ g.edges, e.src ∈ g.ids ∧ e.dst ∈ g.ids) ∧
        loopRegionCheck g = true ∧
        (∃ order, TopoOrderOn g.ids (uncondCollapsedPairs g) order) ∧
        reachCheck g = true)) ∧
    (∀ err, validate g = .error err →
      ∀ cfg handler sched cancelAt vars,
        startRun g cfg handler sched cancelAt vars = .error err) := by
  refine ⟨validate_ok_iff g, ?_⟩
  intro err herr cfg handler sched cancelAt vars
  simp [startRun, herr]

/-- Witness for claim C7: a graph with a duplicated block id is
rejected and its run never starts, while a well-formed two-block graph
validates. -/
theorem claim_c7_witness :
    validate (⟨[⟨0, "a", .normal⟩, ⟨0, "b", .normal⟩], [], [], 0⟩ : Graph)
      = .error .duplicateIds ∧
    startRun ⟨[⟨0, "a", .normal⟩, ⟨0, "b", .normal⟩], [], [], 0⟩ ⟨1, 1, 1⟩
      (fun _ => true) (fun _ => 0) none [] = .error .duplicateIds ∧
    (∃ g', validate
      (⟨[⟨0, "s", .normal⟩, ⟨1, "t", .normal⟩], [⟨0, 1, none, false⟩], [], 0⟩ : Graph)
      = .ok g') := by
  have hbad : validate (⟨[⟨0, "a", .normal⟩, ⟨0, "b", .normal⟩], [], [], 0⟩ : Graph)
      = .error .duplicateIds := by rfl
  refine ⟨hbad,
    (claim_c7_validation _).2 .duplicateIds hbad ⟨1, 1, 1⟩ (fun _ => true)
      (fun _ => 0) none [], ?_⟩
  refine (claim_c7_validation _).1.mpr
    ⟨by decide, ?_, by rfl, ⟨[0, 1], by unfold TopoOrderOn; decide⟩, by rfl⟩
  intro e he
  rcases List.mem_cons.mp he with h | h
  · subst h; exact ⟨by decide, by decide⟩
  · cases h

end SimEngine

namespace SimEngine

/-! ## Basic facts about the executor model -/

theorem edgeSatisfied_terminal {st : Nat → Status} {vars : Bindings} {e : Edge}
    (h : edgeSatisfied st vars e = true) : (st e.src).isTerminal = true := by
  unfold edgeSatisfied at h
  cases hs : st e.src <;> rw [hs] at h <;>
    first
      | rfl
      | exact absurd h (by simp)

theorem mem_eligible_iff {g : Graph} {c : ExecCtx} {b : Nat} :
    b ∈ eligible g c ↔
      b ∈ g.ids ∧ c.statuses b = .pending ∧
        ∀ e ∈ edgesInto g b, edgeSatisfied c.statuses c.vars e = true := by
  unfold eligible eligibleCore
  rw [List.mem_filter, Bool.and_eq_true, List.all_eq_true, beq_iff_eq]

theorem mem_skippable_iff {g : Graph} {c : ExecCtx} {b : Nat} :
    b ∈ skippable g c ↔
      b ∈ g.ids ∧ c.statuses b = .pending ∧
        (∀ e ∈ edgesInto g b, srcTerminal c.statuses e = true) ∧
        ¬(∀ e ∈ edgesInto g b, edgeSatisfied c.statuses c.vars e = true) := by
  unfold skippable
  rw [List.mem_filter, Bool.and_eq_true, Bool.and_eq_true, beq_iff_eq,
    Bool.not_eq_true', ← Bool.not_eq_true, List.all_eq_true, List.all_eq_true,
    and_assoc]

theorem dispatchBlock_statuses (handler : Nat → Bool) (b : Nat) (c : ExecCtx)
    (x : Nat) :
    (dispatchBlock handler b c).statuses x =
      if x = b then (if handler b then Status.succeeded else Status.failed)
      else c.statuses x := by
  by_cases h : handler b <;> simp [dispatchBlock, emit, h]

theorem dispatchBlock_errors (handler : Nat → Bool) (b : Nat) (c : ExecCtx)
    (x : Nat) :
    (dispatchBlock handler b c).errors x =
      if handler b then c.errors x
      else (if x = b then some .handlerError else c.errors x) := by
  by_cases h : handler b <;> simp [dispatchBlock, emit, h]

theorem dispatchBlock_events (handler : Nat → Bool) (b : Nat) (c : ExecCtx) :
    (dispatchBlock handler b c).events =
      c.events ++ [Event.started b,
        if handler b then Event.succeededEv b else Event.failedEv b .handlerError] := by
  by_cases h : handler b <;> simp [dispatchBlock, emit, h]

theorem skipBlock_statuses (b : Nat) (c : ExecCtx) (x : Nat) :
    (skipBlock b c).statuses x = if x = b then Status.skipped else c.statuses x := by
  simp [skipBlock, emit]

theorem skipBlock_events (b : Nat) (c : ExecCtx) :
    (skipBlock b c).events = c.events ++ [Event.skippedEv b] := by
  simp [skipBlock, emit]

theorem countT_append (b : Nat) (l₁ l₂ : List Event) :
    countT b (l₁ ++ l₂) = countT b l₁ + countT b l₂ := by
  simp [countT, List.filter_append]

theorem countT_started_succeeded (b x : Nat) :
    countT b [Event.started x, Event.succeededEv x] = if x = b then 1 else 0 := by
  by_cases h : x = b
  · simp [countT, List.filter, isTermEvFor, h]
  · have hb : (x == b) = false := by simp [h]
    simp [countT, List.filter, isTermEvFor, hb, h]

theorem countT_started_failed (b x : Nat) (k : ErrKind) :
    countT b [Event.started x, Event.failedEv x k] = if x = b then 1 else 0 := by
  by_cases h : x = b
  · simp [countT, List.filter, isTermEvFor, h]
  · have hb : (x == b) = false := by simp [h]
    simp [countT, List.filter, isTermEvFor, hb, h]

theorem countT_skipped (b x : Nat) :
    countT b [Event.skippedEv x] = if x = b then 1 else 0 := by
  by_cases h : x = b
  · simp [countT, List.filter, isTermEvFor, h]
  · have hb : (x == b) = false := by simp [h]
    simp [countT, List.filter, isTermEvFor, hb, h]

theorem hasTermEv_mono {b : Nat} {l₁ : List Event} (l₂ : List Event)
    (h : hasTermEv b l₁) : hasTermEv b (l₁ ++ l₂) := by
  obtain ⟨e, he, hp⟩ := h
  exact ⟨e, List.mem_append_left l₂ he, hp⟩

theorem hasTermEv_of_countT_one {b : Nat} {evs : List Event}
    (h : countT b evs = 1) : hasTermEv b evs := by
  have hne : evs.filter (isTermEvFor b) ≠ [] := by
    intro hnil
    rw [countT, hnil] at h
    cases h
  obtain ⟨e, he⟩ := List.exists_mem_of_ne_nil _ hne
  have := List.mem_filter.mp he
  exact ⟨e, this.1, this.2⟩

theorem noCancelEv_append {l₁ l₂ : List Event} (h₁ : noCancelEv l₁)
    (h₂ : noCancelEv l₂) : noCancelEv (l₁ ++ l₂) := by
  intro b hb
  rcases List.mem_append.mp hb with hb | hb
  · exact h₁ b hb
  · exact h₂ b hb

theorem noCancelEv_dispatch (x : Nat) (t : Event)
    (ht : t = Event.succeededEv x ∨ t = Event.failedEv x .handlerError) :
    noCancelEv [Event.started x, t] := by
  intro b hb
  rcases ht with ht | ht <;> subst ht <;> simp at hb

theorem noCancelEv_skip (x : Nat) : noCancelEv [Event.skippedEv x] := by
  intro b hb
  simp at hb

theorem noStartAfterCancel_of_noCancel {evs : List Event}
    (h : noCancelEv evs) : noStartAfterCancel evs := by
  intro pre b post heq b' _
  refine absurd ?_ (h b)
  rw [heq]
  exact List.mem_append_right pre (List.mem_cons_self _ _)

theorem startOK_append_no_start {g : Graph} {evs news : List Event}
    (h : startOK g evs) (hn : ∀ e ∈ news, isStartedEv e = false) :
    startOK g (evs ++ news) := by
  intro pre b post heq p hdep
  rcases List.append_eq_append_iff.mp heq with ⟨a', _, ha2⟩ | ⟨c', hc1, hc2⟩
  · have : Event.started b ∈ news := by
      rw [ha2]
      exact List.mem_append_right a' (List.mem_cons_self _ _)
    have := hn _ this
    simp [isStartedEv] at this
  · cases c' with
    | nil =>
      have : Event.started b ∈ news := by
        have : Event.started b :: post = news := by simpa using hc2
        rw [← this]
        exact List.mem_cons_self _ _
      have := hn _ this
      simp [isStartedEv] at this
    | cons x c'' =>
      have hx : x = Event.started b ∧ c'' ++ news = post := by
        have := hc2
        rw [List.cons_append] at this
        exact ⟨(List.cons.injEq _ _ _ _ ▸ this).1.symm, ((List.cons.injEq _ _ _ _ ▸ this).2).symm⟩
      have hevs : evs = pre ++ Event.started b :: c'' := by
        rw [hc1, hx.1]
      exact h pre b c'' hevs p hdep

theorem deps_terminal_of_sat {g : Graph} {c : ExecCtx} {b : Nat}
    (hInv : ExecInv g c)
    (hsat : ∀ e ∈ edgesInto g b, edgeSatisfied c.statuses c.vars e = true) :
    ∀ p, Relation.TransGen (edgeRel g) p b → (c.statuses p).isTerminal = true := by
  intro p hdep
  refine Relation.TransGen.head_induction_on hdep ?_ ?_
  · intro a h
    obtain ⟨e, he, hsrc, hdst⟩ := h
    have hein : e ∈ edgesInto g b := by
      refine List.mem_filter.mpr ⟨he, ?_⟩
      simp [hdst]
    have := edgeSatisfied_terminal (hsat e hein)
    rwa [hsrc] at this
  · intro a m h' _ ihm
    obtain ⟨e, he, hsrc, hdst⟩ := h'
    have := hInv.predClosed e he (by rw [hdst]; exact ihm)
    rwa [hsrc] at this

theorem deps_have_termEv {g : Graph} {c : ExecCtx} {b : Nat}
    (hInv : ExecInv g c)
    (hsat : ∀ e ∈ edgesInto g b, edgeSatisfied c.statuses c.vars e = true) :
    ∀ p, Relation.TransGen (edgeRel g) p b → hasTermEv p c.events := by
  intro p hdep
  have hterm := deps_terminal_of_sat hInv hsat p hdep
  have hin : p ∈ g.ids := hInv.termIds p hterm
  have := hInv.cnt p hin
  rw [hterm] at this
  exact hasTermEv_of_countT_one (by simpa using this)

theorem getD_mod_mem {l : List Nat} (h : ¬l.isEmpty = true) (k : Nat) :
    l.getD (k % l.length) 0 ∈ l := by
  have hne : l ≠ [] := by
    intro hnil
    rw [hnil] at h
    exact h rfl
  have hlt : k % l.length < l.length := Nat.mod_lt _ (List.length_pos.mpr hne)
  rw [List.getD_eq_getElem l 0 hlt]
  exact List.getElem_mem hlt

theorem exists_first_such (p : Nat → Bool) :
    ∀ (l : List Nat), (∃ x ∈ l, p x = true) →
      ∃ pre b post, l = pre ++ b :: post ∧ p b = true ∧ ∀ x ∈ pre, p x = false := by
  intro l
  induction l with
  | nil => rintro ⟨x, hx, _⟩; cases hx
  | cons a t ih =>
    rintro ⟨x, hx, hpx⟩
    by_cases hpa : p a = true
    · exact ⟨[], a, t, rfl, hpa, fun y hy => absurd hy (List.not_mem_nil y)⟩
    · have hxt : x ∈ t := by
        rcases List.mem_cons.mp hx with h | h
        · subst h; exact absurd hpx hpa
        · exact h
      obtain ⟨pre, b, post, hsplit, hb, hpre⟩ := ih ⟨x, hxt, hpx⟩
      refine ⟨a :: pre, b, post, by rw [hsplit, List.cons_append], hb, ?_⟩
      intro y hy
      rcases List.mem_cons.mp hy with h | h
      · subst h
        exact Bool.not_eq_true _ ▸ hpa
      · exact hpre y h

end SimEngine

namespace SimEngine

/-! ## Invariant preservation through executor steps -/

theorem startOK_append_dispatch {g : Graph} {evs : List Event} {b : Nat}
    (h : startOK g evs) (t : Event) (ht : isStartedEv t = false)
    (hdeps : ∀ p, Relation.TransGen (edgeRel g) p b → hasTermEv p evs) :
    startOK g (evs ++ [Event.started b, t]) := by
  intro pre b' post heq p hdep
  rcases List.append_eq_append_iff.mp heq with ⟨a', ha1, ha2⟩ | ⟨c', hc1, hc2⟩
  · cases a' with
    | nil =>
      simp only [List.nil_append] at ha2
      have hb' : b = b' := by
        have := (List.cons.injEq _ _ _ _ ▸ ha2).1
        exact Event.started.inj this
      rw [ha1, List.append_nil]
      exact hdeps p (hb' ▸ hdep)
    | cons x a'' =>
      cases a'' with
      | nil =>
        have : t = Event.started b' := by
          have := (List.cons.injEq _ _ _ _ ▸ ha2).2
          simpa using (List.cons.injEq _ _ _ _ ▸ this).1
        rw [this] at ht
        simp [isStartedEv] at ht
      | cons y a''' =>
        have := congrArg List.length ha2
        simp at this
  · cases c' with
    | nil =>
      simp only [List.nil_append] at hc2
      have hb' : b' = b := by
        have := (List.cons.injEq _ _ _ _ ▸ hc2).1
        exact Event.started.inj this
      have hpre : evs = pre := by rw [hc1, List.append_nil]
      rw [← hpre]
      exact hdeps p (hb' ▸ hdep)
    | cons x c'' =>
      have hx : x = Event.started b' := by
        have := hc2
        rw [List.cons_append] at this
        exact ((List.cons.injEq _ _ _ _ ▸ this).1).symm
      have hevs : evs = pre ++ Event.started b' :: c'' := by
        rw [hc1, hx]
      exact h pre b' c'' hevs p hdep

theorem skipBlock_inv {g : Graph} {c : ExecCtx} {b : Nat}
    (hInv : ExecInv g c) (hb : b ∈ skippable g c) : ExecInv g (skipBlock b c) := by
  obtain ⟨hbid, hbpend, hsrcterm, _⟩ := mem_skippable_iff.mp hb
  constructor
  · intro x
    rw [skipBlock_statuses]
    split_ifs with hx
    · simp
    · exact hInv.noRunning x
  · intro x hterm
    rw [skipBlock_statuses] at hterm
    split_ifs at hterm with hx
    · exact hx ▸ hbid
    · exact hInv.termIds x hterm
  · intro y hy
    rw [skipBlock_events, countT_append, countT_skipped, skipBlock_statuses]
    by_cases hyb : y = b
    · subst hyb
      have := hInv.cnt y hy
      rw [hbpend] at this
      simp only [Status.isTerminal] at this
      simp [this, Status.isTerminal]
    · have hne : ¬(b = y) := fun h => hyb h.symm
      simp only [hne, if_false, hyb]
      have := hInv.cnt y hy
      simpa using this
  · intro e he hterm
    rw [skipBlock_statuses] at hterm ⊢
    by_cases hdst : e.dst = b
    · split_ifs with hsrc
      · simp [Status.isTerminal]
      · have hein : e ∈ edgesInto g b := by
          refine List.mem_filter.mpr ⟨he, ?_⟩
          simp [hdst]
        exact hsrcterm e hein
    · rw [if_neg hdst] at hterm
      have := hInv.predClosed e he hterm
      split_ifs with hsrc
      · simp [Status.isTerminal]
      · exact this
  · rw [skipBlock_events]
    refine startOK_append_no_start hInv.startOk ?_
    intro e he
    have : e = Event.skippedEv b := by simpa using he
    rw [this]
    rfl
  · rw [skipBlock_events]
    exact noCancelEv_append hInv.noCancel (noCancelEv_skip b)

theorem dispatchBlock_inv {g : Graph} {c : ExecCtx} {b : Nat}
    (handler : Nat → Bool) (hInv : ExecInv g c) (hb : b ∈ eligible g c) :
    ExecInv g (dispatchBlock handler b c) := by
  obtain ⟨hbid, hbpend, hsat⟩ := mem_eligible_iff.mp hb
  constructor
  · intro x
    rw [dispatchBlock_statuses]
    by_cases hx : x = b
    · rw [if_pos hx]
      by_cases hh : handler b <;> simp [hh]
    · rw [if_neg hx]
      exact hInv.noRunning x
  · intro x hterm
    rw [dispatchBlock_statuses] at hterm
    by_cases hx : x = b
    · exact hx ▸ hbid
    · rw [if_neg hx] at hterm
      exact hInv.termIds x hterm
  · intro y hy
    rw [dispatchBlock_events, countT_append, dispatchBlock_statuses]
    have hpair : countT y [Event.started b,
        if handler b then Event.succeededEv b else Event.failedEv b .handlerError]
        = if b = y then 1 else 0 := by
      by_cases hh : handler b
      · rw [if_pos hh, countT_started_succeeded]
      · rw [if_neg hh, countT_started_failed]
    rw [hpair]
    by_cases hyb : y = b
    · subst hyb
      have := hInv.cnt y hy
      rw [hbpend] at this
      simp only [Status.isTerminal] at this
      by_cases hh : handler y <;> simp [this, hh, Status.isTerminal]
    · have hne : ¬(b = y) := fun h => hyb h.symm
      simp only [hne, if_false, hyb]
      have := hInv.cnt y hy
      simpa using this
  · intro e he hterm
    rw [dispatchBlock_statuses] at hterm ⊢
    by_cases hdst : e.dst = b
    · by_cases hsrc : e.src = b
      · rw [if_pos hsrc]
        by_cases hh : handler b <;> simp [hh, Status.isTerminal]
      · rw [if_neg hsrc]
        have hein : e ∈ edgesInto g b := by
          refine List.mem_filter.mpr ⟨he, ?_⟩
          simp [hdst]
        exact edgeSatisfied_terminal (hsat e hein)
    · rw [if_neg hdst] at hterm
      have := hInv.predClosed e he hterm
      by_cases hsrc : e.src = b
      · rw [if_pos hsrc]
        by_cases hh : handler b <;> simp [hh, Status.isTerminal]
      · rw [if_neg hsrc]
        exact this
  · rw [dispatchBlock_events]
    refine startOK_append_dispatch hInv.startOk _ ?_ ?_
    · by_cases hh : handler b <;> simp [hh, isStartedEv]
    · exact deps_have_termEv hInv hsat
  · rw [dispatchBlock_events]
    refine noCancelEv_append hInv.noCancel ?_
    refine noCancelEv_dispatch b _ ?_
    by_cases hh : handler b <;> simp [hh]

theorem filter_length_drop (l : List Nat) (p q : Nat → Bool) (b : Nat)
    (hnd : l.Nodup) (hb : b ∈ l) (hpb : p b = true) (hqb : q b = false)
    (hagree : ∀ x ∈ l, x ≠ b → q x = p x) :
    (l.filter q).length + 1 = (l.filter p).length := by
  induction l with
  | nil => cases hb
  | cons a t ih =>
    have hnd' : t.Nodup := (List.nodup_cons.mp hnd).2
    have hant : a ∉ t := (List.nodup_cons.mp hnd).1
    by_cases hab : a = b
    · subst hab
      rw [List.filter_cons, List.filter_cons, hpb, hqb]
      simp only [if_true, if_false]
      have : t.filter q = t.filter p := by
        refine List.filter_congr ?_
        intro x hx
        exact hagree x (List.mem_cons_of_mem a hx) (fun hxb => hant (hxb ▸ hx))
      rw [this]
      simp
    · have hbt : b ∈ t := by
        rcases List.mem_cons.mp hb with h | h
        · exact absurd h.symm hab
        · exact h
      have hqa : q a = p a := hagree a (List.mem_cons_self a t) hab
      have := ih hnd' hbt (fun x hx hxb => hagree x (List.mem_cons_of_mem a hx) hxb)
      rw [List.filter_cons, List.filter_cons, hqa]
      cases hpa : p a
      · simp only [Bool.false_eq_true, if_false]
        exact this
      · simp only [if_true, List.length_cons]
        omega

theorem execStep_some_spec {g : Graph} {handler : Nat → Bool} {pick : Nat}
    {c c' : ExecCtx} (hInv : ExecInv g c)
    (h : execStep g handler pick c = some c') :
    ExecInv g c' ∧ ∃ b, b ∈ g.ids ∧ c.statuses b = Status.pending ∧
      (c'.statuses b).isTerminal = true ∧
      ∀ x, x ≠ b → c'.statuses x = c.statuses x := by
  by_cases he : (eligible g c).isEmpty = true
  · simp only [execStep, he, if_true] at h
    cases hsk : skippable g c with
    | nil => rw [hsk] at h; cases h
    | cons b t =>
      rw [hsk] at h
      have hc' : c' = skipBlock b c := by
        injection h with h'
        exact h'.symm
      have hbsk : b ∈ skippable g c := by
        rw [hsk]; exact List.mem_cons_self b t
      obtain ⟨hbid, hbpend, _, _⟩ := mem_skippable_iff.mp hbsk
      subst hc'
      refine ⟨skipBlock_inv hInv hbsk, b, hbid, hbpend, ?_, ?_⟩
      · rw [skipBlock_statuses]
        simp [Status.isTerminal]
      · intro x hx
        rw [skipBlock_statuses, if_neg hx]
  · have he' : (eligible g c).isEmpty = false := by
      rw [← Bool.not_eq_true]; exact he
    simp only [execStep, he', Bool.false_eq_true, if_false] at h
    have hc' : c' = dispatchBlock handler
        ((eligible g c).getD (pick % (eligible g c).length) 0) c := by
      injection h with h'
      exact h'.symm
    set bc := (eligible g c).getD (pick % (eligible g c).length) 0 with hbc
    have hbmem : bc ∈ eligible g c := getD_mod_mem he pick
    obtain ⟨hbid, hbpend, _⟩ := mem_eligible_iff.mp hbmem
    subst hc'
    refine ⟨dispatchBlock_inv handler hInv hbmem, bc, hbid, hbpend, ?_, ?_⟩
    · rw [dispatchBlock_statuses]
      by_cases hh : handler bc <;> simp [hh, Status.isTerminal]
    · intro x hx
      rw [dispatchBlock_statuses, if_neg hx]

theorem execStep_some_count {g : Graph} {handler : Nat → Bool} {pick : Nat}
    {c c' : ExecCtx} (hnd : g.ids.Nodup) (hInv : ExecInv g c)
    (h : execStep g handler pick c = some c') :
    (nonTerminalBlocks g c').length + 1 = (nonTerminalBlocks g c).length := by
  obtain ⟨_, b, hbid, hbpend, hbterm, hother⟩ := execStep_some_spec hInv h
  refine filter_length_drop g.ids _ _ b hnd hbid ?_ ?_ ?_
  · rw [hbpend]; rfl
  · rw [hbterm]; rfl
  · intro x _ hxb
    rw [hother x hxb]

end SimEngine

namespace SimEngine

/-! ## Scheduler progress, cancellation, and the run-level theorems -/

theorem scheduler_progress {g : Graph} {c : ExecCtx} (order : List Nat)
    (hend : ∀ e ∈ g.edges, e.src ∈ g.ids ∧ e.dst ∈ g.ids)
    (hord : TopoOrderOn g.ids (edgePairs g) order)
    (hnr : ∀ x, c.statuses x ≠ .running)
    {b0 : Nat} (hb0 : b0 ∈ g.ids) (hpend : (c.statuses b0).isTerminal = false) :
    ¬((eligible g c).isEmpty = true ∧ skippable g c = []) := by
  rintro ⟨helig, hskip⟩
  have hb0o : b0 ∈ order := hord.1 b0 hb0
  obtain ⟨pre, b, post, hsplit, hpb, hpre⟩ :=
    exists_first_such (fun x => !(c.statuses x).isTerminal) order
      ⟨b0, hb0o, by simp [hpend]⟩
  have hbord : b ∈ order := by
    rw [hsplit]
    exact List.mem_append_right pre (List.mem_cons_self _ _)
  have hbid : b ∈ g.ids := hord.2.1 b hbord
  have hbterm : (c.statuses b).isTerminal = false := by simpa using hpb
  have hbpend : c.statuses b = .pending := by
    cases hs : c.statuses b with
    | pending => rfl
    | running => exact absurd hs (hnr b)
    | succeeded => rw [hs] at hbterm; simp [Status.isTerminal] at hbterm
    | failed => rw [hs] at hbterm; simp [Status.isTerminal] at hbterm
    | skipped => rw [hs] at hbterm; simp [Status.isTerminal] at hbterm
  have hbnpre : b ∉ pre := by
    have hnd := hord.2.2.1
    rw [hsplit] at hnd
    have hd := (List.nodup_append.mp hnd).2.2
    intro hmem
    exact hd hmem (List.mem_cons_self _ _)
  have hidxb : listIdx order b = pre.length := by
    rw [hsplit, listIdx_append_right (b :: post) hbnpre]
    simp [listIdx]
  have hterm : ∀ e ∈ edgesInto g b, srcTerminal c.statuses e = true := by
    intro e he
    have hee := List.mem_filter.mp he
    have hdst : e.dst = b := by simpa using hee.2
    have hsid := (hend e hee.1).1
    have hpair : (e.src, e.dst) ∈ edgePairs g :=
      List.mem_map_of_mem (fun e => (e.src, e.dst)) hee.1
    have hlt0 := hord.2.2.2 (e.src, e.dst) hpair hsid (by rw [hdst]; exact hbid)
    have hlt : listIdx order e.src < listIdx order e.dst := hlt0
    rw [hdst, hidxb] at hlt
    have hsrcpre : e.src ∈ pre := by
      by_contra hnp
      have heq2 : listIdx order e.src = pre.length + listIdx (b :: post) e.src := by
        rw [hsplit]
        exact listIdx_append_right (b :: post) hnp
      omega
    have hstat := hpre e.src hsrcpre
    unfold srcTerminal
    simpa using hstat
  by_cases hall : ∀ e ∈ edgesInto g b, edgeSatisfied c.statuses c.vars e = true
  · have hmem : b ∈ eligible g c := mem_eligible_iff.mpr ⟨hbid, hbpend, hall⟩
    rw [List.isEmpty_iff.mp helig] at hmem
    cases hmem
  · have hmem : b ∈ skippable g c := mem_skippable_iff.mpr ⟨hbid, hbpend, hterm, hall⟩
    rw [hskip] at hmem
    cases hmem

theorem mem_nonTerminal_iff {g : Graph} {c : ExecCtx} {x : Nat} :
    x ∈ nonTerminalBlocks g c ↔ x ∈ g.ids ∧ (c.statuses x).isTerminal = false := by
  unfold nonTerminalBlocks
  rw [List.mem_filter, Bool.not_eq_true']

theorem cancelFinalize_statuses (g : Graph) (c : ExecCtx) (x : Nat) :
    (cancelFinalize g c).statuses x =
      if x ∈ nonTerminalBlocks g c then Status.failed else c.statuses x := rfl

theorem cancelFinalize_errors (g : Graph) (c : ExecCtx) (x : Nat) :
    (cancelFinalize g c).errors x =
      if x ∈ nonTerminalBlocks g c then some ErrKind.cancellationError
      else c.errors x := rfl

theorem cancelFinalize_events (g : Graph) (c : ExecCtx) :
    (cancelFinalize g c).events =
      c.events ++ (nonTerminalBlocks g c).map
        (fun b => Event.failedEv b .cancellationError) := rfl

theorem cancelFinalize_terminal {g : Graph} {c : ExecCtx} :
    ∀ b ∈ g.ids, ((cancelFinalize g c).statuses b).isTerminal = true := by
  intro b hb
  rw [cancelFinalize_statuses]
  by_cases hmem : b ∈ nonTerminalBlocks g c
  · rw [if_pos hmem]; rfl
  · rw [if_neg hmem]
    cases hv : (c.statuses b).isTerminal with
    | true => rfl
    | false => exact absurd (mem_nonTerminal_iff.mpr ⟨hb, hv⟩) hmem

theorem length_filter_beq_nodup (b : Nat) :
    ∀ (l : List Nat), l.Nodup →
      (l.filter (fun x => x == b)).length = if b ∈ l then 1 else 0 := by
  intro l
  induction l with
  | nil => intro _; simp
  | cons a t ih =>
    intro hnd
    have hat : a ∉ t := (List.nodup_cons.mp hnd).1
    have hndt : t.Nodup := (List.nodup_cons.mp hnd).2
    rw [List.filter_cons]
    by_cases hab : a = b
    · subst hab
      have hbeq : (a == a) = true := by simp
      rw [hbeq]
      simp only [if_true, List.length_cons]
      have hzero : (t.filter (fun x => x == a)).length = 0 := by
        rw [ih hndt]
        simp [hat]
      rw [hzero]
      simp [List.mem_cons]
    · have hbeq : (a == b) = false := by simp [hab]
      rw [hbeq]
      simp only [Bool.false_eq_true, if_false, ih hndt]
      have hmemiff : (b ∈ a :: t) ↔ (b ∈ t) := by
        constructor
        · intro h
          rcases List.mem_cons.mp h with h | h
          · exact absurd h.symm hab
          · exact h
        · exact List.mem_cons_of_mem a
      by_cases hbt : b ∈ t
      · rw [if_pos hbt, if_pos (hmemiff.mpr hbt)]
      · rw [if_neg hbt, if_neg (fun hc => hbt (hmemiff.mp hc))]

theorem cancelFinalize_cnt {g : Graph} {c : ExecCtx} (hnd : g.ids.Nodup)
    (hInv : ExecInv g c) :
    ∀ b ∈ g.ids, countT b (cancelFinalize g c).events = 1 := by
  intro b hb
  rw [cancelFinalize_events, countT_append]
  have hndnt : (nonTerminalBlocks g c).Nodup := List.Nodup.filter _ hnd
  have hmapcnt : countT b ((nonTerminalBlocks g c).map
      (fun x => Event.failedEv x .cancellationError))
      = if b ∈ nonTerminalBlocks g c then 1 else 0 := by
    unfold countT
    rw [List.filter_map, List.length_map]
    have hcomp : (isTermEvFor b ∘ fun x => Event.failedEv x ErrKind.cancellationError)
        = fun x => x == b := rfl
    rw [hcomp]
    exact length_filter_beq_nodup b (nonTerminalBlocks g c) hndnt
  rw [hmapcnt]
  by_cases hmem : b ∈ nonTerminalBlocks g c
  · have hnt := (mem_nonTerminal_iff.mp hmem).2
    have := hInv.cnt b hb
    rw [hnt] at this
    simp only [Bool.false_eq_true, if_false] at this
    rw [this, if_pos hmem]
  · have ht : (c.statuses b).isTerminal = true := by
      cases hv : (c.statuses b).isTerminal with
      | true => rfl
      | false => exact absurd (mem_nonTerminal_iff.mpr ⟨hb, hv⟩) hmem
    have := hInv.cnt b hb
    rw [ht] at this
    simp only [if_true] at this
    rw [this, if_neg hmem]

theorem execInv_init (g : Graph) (vars : Bindings) : ExecInv g (initCtx vars) := by
  constructor
  · intro x
    show Status.pending ≠ Status.running
    decide
  · intro x h
    simp [initCtx, Status.isTerminal] at h
  · intro b _
    rfl
  · intro e _ h
    simp [initCtx, Status.isTerminal] at h
  · intro pre b post heq
    have heq' : ([] : List Event) = pre ++ Event.started b :: post := heq
    exact absurd heq' (by simp)
  · intro b h
    simp [initCtx] at h

theorem execRun_terminal_cnt (g : Graph) (handler : Nat → Bool)
    (sched : Nat → Nat) (cancelAt : Option Nat) (order : List Nat)
    (hnd : g.ids.Nodup)
    (hend : ∀ e ∈ g.edges, e.src ∈ g.ids ∧ e.dst ∈ g.ids)
    (hord : TopoOrderOn g.ids (edgePairs g) order) :
    ∀ (fuel i : Nat) (c : ExecCtx), ExecInv g c →
      (nonTerminalBlocks g c).length ≤ fuel →
      (∀ b ∈ g.ids,
        ((execRun g handler sched cancelAt fuel i c).statuses b).isTerminal = true) ∧
      (∀ b ∈ g.ids,
        countT b (execRun g handler sched cancelAt fuel i c).events = 1) := by
  intro fuel
  induction fuel with
  | zero =>
    intro i c hInv hlen
    have hnil : nonTerminalBlocks g c = [] :=
      List.length_eq_zero.mp (Nat.le_zero.mp hlen)
    have hterm : ∀ b ∈ g.ids, (c.statuses b).isTerminal = true := by
      intro b hb
      cases hv : (c.statuses b).isTerminal with
      | true => rfl
      | false =>
        have : b ∈ nonTerminalBlocks g c := mem_nonTerminal_iff.mpr ⟨hb, hv⟩
        rw [hnil] at this
        cases this
    refine ⟨hterm, ?_⟩
    intro b hb
    have := hInv.cnt b hb
    rw [hterm b hb] at this
    simpa using this
  | succ n ih =>
    intro i c hInv hlen
    simp only [execRun]
    by_cases hcanc : cancelNow cancelAt i = true
    · rw [if_pos hcanc]
      exact ⟨cancelFinalize_terminal, cancelFinalize_cnt hnd hInv⟩
    · rw [if_neg hcanc]
      cases hstep : execStep g handler (sched i) c with
      | none =>
        have hterm : ∀ b ∈ g.ids, (c.statuses b).isTerminal = true := by
          intro b hb
          cases hv : (c.statuses b).isTerminal with
          | true => rfl
          | false =>
            have hcases : (eligible g c).isEmpty = true ∧ skippable g c = [] := by
              by_cases he : (eligible g c).isEmpty = true
              · refine ⟨he, ?_⟩
                simp only [execStep, he, if_true] at hstep
                cases hsk : skippable g c with
                | nil => rfl
                | cons x t => rw [hsk] at hstep; cases hstep
              · have he' : (eligible g c).isEmpty = false := by
                  rw [← Bool.not_eq_true]; exact he
                simp only [execStep, he', Bool.false_eq_true, if_false] at hstep
                cases hstep
            exact absurd hcases
              (scheduler_progress order hend hord hInv.noRunning hb hv)
        refine ⟨hterm, ?_⟩
        intro b hb
        have := hInv.cnt b hb
        rw [hterm b hb] at this
        simpa using this
      | some c' =>
        obtain ⟨hInv', _⟩ := execStep_some_spec hInv hstep
        have hlen' := execStep_some_count hnd hInv hstep
        exact ih (i + 1) c' hInv' (by omega)

theorem execRun_startOK (g : Graph) (handler : Nat → Bool) (sched : Nat → Nat)
    (cancelAt : Option Nat) :
    ∀ (fuel i : Nat) (c : ExecCtx), ExecInv g c →
      startOK g (execRun g handler sched cancelAt fuel i c).events := by
  intro fuel
  induction fuel with
  | zero => intro i c hInv; exact hInv.startOk
  | succ n ih =>
    intro i c hInv
    simp only [execRun]
    by_cases hcanc : cancelNow cancelAt i = true
    · rw [if_pos hcanc]
      rw [cancelFinalize_events]
      refine startOK_append_no_start hInv.startOk ?_
      intro e he
      obtain ⟨x, _, rfl⟩ := List.mem_map.mp he
      rfl
    · rw [if_neg hcanc]
      cases hstep : execStep g handler (sched i) c with
      | none => exact hInv.startOk
      | some c' => exact ih (i + 1) c' (execStep_some_spec hInv hstep).1

theorem noStartAfterCancel_cancelAppend {evs : List Event} {l : List Nat}
    (hnc : noCancelEv evs) :
    noStartAfterCancel
      (evs ++ l.map (fun b => Event.failedEv b .cancellationError)) := by
  intro pre b post heq b' hmem
  rcases List.append_eq_append_iff.mp heq with ⟨a', _, ha2⟩ | ⟨c', hc1, hc2⟩
  · have hpost : Event.started b' ∈ l.map
        (fun x => Event.failedEv x .cancellationError) := by
      rw [ha2]
      exact List.mem_append_right a' (List.mem_cons_of_mem _ hmem)
    obtain ⟨x, _, hx⟩ := List.mem_map.mp hpost
    cases hx
  · cases c' with
    | nil =>
      have hmapeq : Event.failedEv b .cancellationError :: post
          = l.map (fun x => Event.failedEv x .cancellationError) := by
        simpa using hc2
      have hpost : Event.started b' ∈ l.map
          (fun x => Event.failedEv x .cancellationError) := by
        rw [← hmapeq]
        exact List.mem_cons_of_mem _ hmem
      obtain ⟨x, _, hx⟩ := List.mem_map.mp hpost
      cases hx
    | cons x c'' =>
      have hx : x = Event.failedEv b .cancellationError := by
        have := hc2
        rw [List.cons_append] at this
        exact ((List.cons.injEq _ _ _ _ ▸ this).1).symm
      have : Event.failedEv b .cancellationError ∈ evs := by
        rw [hc1, hx]
        exact List.mem_append_right pre (List.mem_cons_self _ _)
      exact hnc b this

theorem execRun_noStartAfterCancel (g : Graph) (handler : Nat → Bool)
    (sched : Nat → Nat) (cancelAt : Option Nat) :
    ∀ (fuel i : Nat) (c : ExecCtx), ExecInv g c →
      noStartAfterCancel (execRun g handler sched cancelAt fuel i c).events := by
  intro fuel
  induction fuel with
  | zero => intro i c hInv; exact noStartAfterCancel_of_noCancel hInv.noCancel
  | succ n ih =>
    intro i c hInv
    simp only [execRun]
    by_cases hcanc : cancelNow cancelAt i = true
    · rw [if_pos hcanc]
      rw [cancelFinalize_events]
      exact noStartAfterCancel_cancelAppend hInv.noCancel
    · rw [if_neg hcanc]
      cases hstep : execStep g handler (sched i) c with
      | none => exact noStartAfterCancel_of_noCancel hInv.noCancel
      | some c' => exact ih (i + 1) c' (execStep_some_spec hInv hstep).1

/-- Claim C1: in every run (any handler outcomes, any dispatch
schedule, any cancellation point) of a validated acyclic non-loop
graph, every block reaches a terminal status, and the event log holds
exactly one terminal transition per block — no block stays pending and
none is terminalized twice. -/
theorem claim_c1_terminal_exactly_once (g : Graph) (order : List Nat)
    (handler : Nat → Bool) (sched : Nat → Nat) (cancelAt : Option Nat)
    (vars : Bindings) (hval : validate g = Except.ok g) (_hnl : NonLoopGraph g)
    (hord : TopoOrderOn g.ids (edgePairs g) order) :
    (∀ b ∈ g.ids,
      ((runGraph g handler sched cancelAt vars).statuses b).isTerminal = true) ∧
    (∀ b ∈ g.ids,
      countT b (runGraph g handler sched cancelAt vars).events = 1) := by
  have hok : ∃ g', validate g = .ok g' := ⟨g, hval⟩
  have hnd : g.ids.Nodup := ((validate_ok_iff g).mp hok).1
  have hend := ((validate_ok_iff g).mp hok).2.1
  exact execRun_terminal_cnt g handler sched cancelAt order hnd hend hord
    g.ids.length 0 (initCtx vars) (execInv_init g vars)
    (List.length_filter_le _ _)

/-- Witness for claim C1: the two-block chain graph, run with an
always-succeeding handler and no cancellation, ends with both blocks
terminal and one terminal event each. -/
theorem claim_c1_witness :
    (∀ b ∈ (⟨[⟨0, "s", .normal⟩, ⟨1, "t", .normal⟩], [⟨0, 1, none, false⟩], [], 0⟩
        : Graph).ids,
      ((runGraph ⟨[⟨0, "s", .normal⟩, ⟨1, "t", .normal⟩], [⟨0, 1, none, false⟩], [], 0⟩
        (fun _ => true) (fun _ => 0) none []).statuses b).isTerminal = true) ∧
    (∀ b ∈ (⟨[⟨0, "s", .normal⟩, ⟨1, "t", .normal⟩], [⟨0, 1, none, false⟩], [], 0⟩
        : Graph).ids,
      countT b (runGraph ⟨[⟨0, "s", .normal⟩, ⟨1, "t", .normal⟩], [⟨0, 1, none, false⟩], [], 0⟩
        (fun _ => true) (fun _ => 0) none []).events = 1) :=
  claim_c1_terminal_exactly_once _ [0, 1] (fun _ => true) (fun _ => 0) none []
    (by rfl) ⟨rfl, by decide⟩ (by unfold TopoOrderOn; decide)

/-- Claim C2: in every run, whenever a block's dispatch (started event)
appears in the event log, every direct or transitive dependency of that
block already has a terminal event strictly earlier in the log — a
dependent never starts before its dependencies are terminal. -/
theorem claim_c2_dependency_before_start (g : Graph) (handler : Nat → Bool)
    (sched : Nat → Nat) (cancelAt : Option Nat) (vars : Bindings) :
    startOK g (runGraph g handler sched cancelAt vars).events :=
  execRun_startOK g handler sched cancelAt g.ids.length 0 (initCtx vars)
    (execInv_init g vars)

/-- Witness for claim C2: the dependency-ordering trace property on a
concrete run of the two-block chain. -/
theorem claim_c2_witness :
    startOK ⟨[⟨0, "s", .normal⟩, ⟨1, "t", .normal⟩], [⟨0, 1, none, false⟩], [], 0⟩
      (runGraph ⟨[⟨0, "s", .normal⟩, ⟨1, "t", .normal⟩], [⟨0, 1, none, false⟩], [], 0⟩
        (fun _ => true) (fun _ => 0) none []).events :=
  claim_c2_dependency_before_start _ (fun _ => true) (fun _ => 0) none []

/-- Claim C5: after a run is cancelled, every block of the graph that
was not already terminal at cancellation time transitions to `failed`
with the cancellation error kind (already-terminal blocks keep their
status), and no block dispatch ever appears after a cancellation
failure event in the run's log. -/
theorem claim_c5_cancellation (g : Graph) (handler : Nat → Bool)
    (sched : Nat → Nat) (vars : Bindings) (k : Nat) (c : ExecCtx) :
    ((∀ b ∈ g.ids, (c.statuses b).isTerminal = false →
        (cancelFinalize g c).statuses b = Status.failed ∧
        (cancelFinalize g c).errors b = some ErrKind.cancellationError) ∧
      (∀ b, (c.statuses b).isTerminal = true →
        (cancelFinalize g c).statuses b = c.statuses b)) ∧
    noStartAfterCancel (runGraph g handler sched (some k) vars).events := by
  refine ⟨⟨?_, ?_⟩, ?_⟩
  · intro b hb hnt
    have hmem : b ∈ nonTerminalBlocks g c := mem_nonTerminal_iff.mpr ⟨hb, hnt⟩
    rw [cancelFinalize_statuses, cancelFinalize_errors, if_pos hmem, if_pos hmem]
    exact ⟨rfl, rfl⟩
  · intro b ht
    have hmem : b ∉ nonTerminalBlocks g c := by
      intro hmem
      rw [(mem_nonTerminal_iff.mp hmem).2] at ht
      cases ht
    rw [cancelFinalize_statuses, if_neg hmem]
  · exact execRun_noStartAfterCancel g handler sched (some k) g.ids.length 0
      (initCtx vars) (execInv_init g vars)

/-- Witness for claim C5: cancelling the fresh two-block run fails the
pending block 0 with the cancellation error kind, and the run cancelled
at step 0 dispatches nothing after the cancellation events. -/
theorem claim_c5_witness :
    ((cancelFinalize ⟨[⟨0, "s", .normal⟩, ⟨1, "t", .normal⟩], [⟨0, 1, none, false⟩], [], 0⟩
        (initCtx [])).statuses 0 = Status.failed ∧
      (cancelFinalize ⟨[⟨0, "s", .normal⟩, ⟨1, "t", .normal⟩], [⟨0, 1, none, false⟩], [], 0⟩
        (initCtx [])).errors 0 = some ErrKind.cancellationError) ∧
    noStartAfterCancel (runGraph
      ⟨[⟨0, "s", .normal⟩, ⟨1, "t", .normal⟩], [⟨0, 1, none, false⟩], [], 0⟩
      (fun _ => true) (fun _ => 0) (some 0) []).events := by
  have h := claim_c5_cancellation
    ⟨[⟨0, "s", .normal⟩, ⟨1, "t", .normal⟩], [⟨0, 1, none, false⟩], [], 0⟩
    (fun _ => true) (fun _ => 0) [] 0 (initCtx [])
  exact ⟨h.1.1 0 (by decide) (by rfl), h.2⟩

end SimEngine
